import Mathlib

/-!
Verification development for the rate-limit configuration canister's
`add_config` operation (`rs/boundary_node/rate_limits/canister/add_config.rs`).

The data model and the operation are translated from the Rust source.  Parts of
the repository that the operation depends on but whose source is not available
here (the `types.rs` input validation, the storage layer behind `CanisterApi`)
are modelled from the specification; each such definition carries a doc comment
starting with `Modelled from the spec:`.
-/

namespace RateLimits

abbrev Version := Nat
abbrev Timestamp := Nat
abbrev SchemaVersion := Nat

/-- Rust `RuleId` wraps a 128-bit UUID; we model the UUID as a natural number. -/
structure RuleId where
  uuid : Nat
deriving DecidableEq

instance : Inhabited RuleId := ⟨⟨0⟩⟩

/-- Rust `IncidentId` wraps a UUID parsed from caller-supplied text. -/
structure IncidentId where
  uuid : Nat
deriving DecidableEq

/-- Modelled from the spec: the canonical (parsed) value of a JSON document.
`rule_raw` semantics are not interpreted beyond "parsing it as structured data
for equality comparison", so only decidable equality and an unbounded supply of
distinct canonical values matter; the carrier is a natural number. -/
structure JsonValue where
  canonical : Nat
deriving DecidableEq

/-- Modelled from the spec: the raw bytes of a rule are either a well-formed
JSON encoding (parsing to a canonical value; `variant` distinguishes different
byte encodings of the same canonical value) or malformed bytes. -/
inductive RuleRaw where
  | wellFormed (value : JsonValue) (variant : Nat)
  | malformed (bytes : Nat)
deriving DecidableEq

/-- Modelled from the spec: `serde_json` parsing of `rule_raw` bytes. -/
def parseRuleRaw : RuleRaw → Option JsonValue
  | .wellFormed v _ => some v
  | .malformed _ => none

/-- Modelled from the spec: incident-id text is either a well-formed UUID text
(`variant` distinguishes different textual spellings of the same UUID) or a
malformed string. -/
inductive IncidentText where
  | wellFormed (id : IncidentId) (variant : Nat)
  | malformed (text : Nat)
deriving DecidableEq

/-- Modelled from the spec: `Uuid`-parsing of the incident-id text. -/
def parseIncidentText : IncidentText → Option IncidentId
  | .wellFormed i _ => some i
  | .malformed _ => none

/-- `rate_limits_api::InputRule`: the raw caller-supplied rule. -/
structure ApiInputRule where
  incident_id : IncidentText
  rule_raw : RuleRaw
  description : String
deriving DecidableEq

/-- `rate_limits_api::InputConfig`: the raw caller-supplied submission. -/
structure ApiInputConfig where
  schema_version : SchemaVersion
  rules : List ApiInputRule
deriving DecidableEq

/-- `types::InputRule` (validated rule): incident id already parsed, original
`rule_raw` bytes retained verbatim. -/
structure InputRule where
  incident_id : IncidentId
  rule_raw : RuleRaw
  description : String
deriving DecidableEq

/-- `types::InputConfig` (validated submission). -/
structure InputConfig where
  schema_version : SchemaVersion
  rules : List InputRule
deriving DecidableEq

/-- Modelled from the spec: the `PartialEq` used at
`current_full_config.rules.iter().position(|rule| rule == input_rule)` —
content equality over `(incident_id, canonical parsed rule_raw, description)`,
independent of the byte encoding of `rule_raw`. -/
def ruleContentEq (a b : InputRule) : Bool :=
  decide (a.incident_id = b.incident_id ∧
          parseRuleRaw a.rule_raw = parseRuleRaw b.rule_raw ∧
          a.description = b.description)

/-- `storage::StorableRule`. -/
structure StorableRule where
  incident_id : IncidentId
  rule_raw : RuleRaw
  description : String
  disclosed_at : Option Timestamp
  added_in_version : Version
  removed_in_version : Option Version
deriving DecidableEq

/-- `storage::StorableConfig`. -/
structure StorableConfig where
  schema_version : SchemaVersion
  active_since : Timestamp
  rule_ids : List RuleId
deriving DecidableEq

/-- `storage::StorableIncident` (its `rule_ids` is a `HashSet`). -/
structure StorableIncident where
  is_disclosed : Bool
  rule_ids : Finset RuleId
deriving DecidableEq

/-- Modelled from the spec: the persisted entity store behind `CanisterApi`.
Rules, incidents and configs are finite maps; `version` holds the key of the
most recently appended config, which is the current (largest) version because
versions are strictly increasing. -/
structure CanisterState where
  version : Option Version
  configs : Version → Option StorableConfig
  rules : RuleId → Option StorableRule
  incidents : IncidentId → Option StorableIncident

def get_version (s : CanisterState) : Option Version := s.version

def get_config (s : CanisterState) (v : Version) : Option StorableConfig := s.configs v

def get_rule (s : CanisterState) (rid : RuleId) : Option StorableRule := s.rules rid

def get_incident (s : CanisterState) (iid : IncidentId) : Option StorableIncident :=
  s.incidents iid

def upsert_rule (s : CanisterState) (rid : RuleId) (r : StorableRule) : CanisterState :=
  { s with rules := fun x => if x = rid then some r else s.rules x }

def upsert_incident (s : CanisterState) (iid : IncidentId) (inc : StorableIncident) :
    CanisterState :=
  { s with incidents := fun x => if x = iid then some inc else s.incidents x }

/-- Modelled from the spec: the storage `add_config(Version, Config)` API; the
record is stored under the version key, which becomes the current version. -/
def storage_add_config (s : CanisterState) (v : Version) (c : StorableConfig) : CanisterState :=
  { s with
    configs := fun x => if x = v then some c else s.configs x
    version := some v }

/-- Modelled from the spec: resolving one rule id to its body for
`get_full_config` ("resolved rule bodies, active rules only"). -/
def resolveActiveRule (s : CanisterState) (rid : RuleId) : Option InputRule :=
  match s.rules rid with
  | some r =>
      if r.removed_in_version = none then
        some ⟨r.incident_id, r.rule_raw, r.description⟩
      else none
  | none => none

/-- Modelled from the spec: `get_full_config(version)` — the stored config with
its rule ids resolved to rule bodies, active rules only. -/
def get_full_config (s : CanisterState) (v : Version) : Option InputConfig :=
  (s.configs v).map fun cfg =>
    ⟨cfg.schema_version, cfg.rule_ids.filterMap (resolveActiveRule s)⟩

/-- `types::InputConfigError`. -/
inductive InputConfigError where
  | InvalidIncidentUuidFormat (index : Nat)
  | InvalidRuleJsonEncoding (index : Nat)
  | DuplicateRules (index1 index2 : Nat)
deriving DecidableEq

/-- `types::AddConfigError`.  The `Internal` payload keeps the constant part of
the source's `anyhow!` message (interpolated values omitted). -/
inductive AddConfigError where
  | InvalidInputConfig (e : InputConfigError)
  | LinkingRuleToDisclosedIncident (index : Nat) (incident_id : IncidentId)
  | Internal (detail : String)
deriving DecidableEq

/-- First index of an element satisfying `p` (Rust `Iterator::position`). -/
def positionFrom {α : Type} (p : α → Bool) : List α → Option Nat
  | [] => none
  | x :: xs => if p x then some 0 else (positionFrom p xs).map (· + 1)

/-- Modelled from the spec: per-entry parsing of the submission (validator
step 1 and 2).  Reports the UUID check before the JSON check, index from
`idx`. -/
def parseInputRules : List ApiInputRule → Nat → Except InputConfigError (List InputRule)
  | [], _ => .ok []
  | r :: rest, idx =>
    match parseIncidentText r.incident_id with
    | none => .error (.InvalidIncidentUuidFormat idx)
    | some iid =>
      match parseRuleRaw r.rule_raw with
      | none => .error (.InvalidRuleJsonEncoding idx)
      | some _ =>
        match parseInputRules rest (idx + 1) with
        | .error e => .error e
        | .ok out => .ok (⟨iid, r.rule_raw, r.description⟩ :: out)

/-- Modelled from the spec: the duplicate scan of the validator — the first
content-equal pair in lexicographic index order. -/
def findDuplicateRules : List InputRule → Option (Nat × Nat)
  | [] => none
  | r :: rest =>
    match positionFrom (fun x => ruleContentEq r x) rest with
    | some k => some (0, k + 1)
    | none => (findDuplicateRules rest).map (fun p => (p.1 + 1, p.2 + 1))

/-- Modelled from the spec: `types::InputConfig::try_from` — parse every entry,
then reject the first content-equal pair. -/
def inputConfigTryFrom (c : ApiInputConfig) : Except InputConfigError InputConfig :=
  match parseInputRules c.rules 0 with
  | .error e => .error e
  | .ok rules =>
    match findDuplicateRules rules with
    | some p => .error (.DuplicateRules p.1 p.2)
    | none => .ok ⟨c.schema_version, rules⟩

def U64MAX : Nat := 2 ^ 64 - 1

/-- `u64::checked_add(1)` on the current version. -/
def checkedAddOne (v : Version) : Option Version :=
  if v + 1 ≤ U64MAX then some (v + 1) else none

/-- `StorableRule` built for a brand-new rule (lines 137–144 of the source). -/
def mkNewStorableRule (next_version : Version) (r : InputRule) : StorableRule :=
  { incident_id := r.incident_id
    rule_raw := r.rule_raw
    description := r.description
    disclosed_at := none
    added_in_version := next_version
    removed_in_version := none }

/-- `current_full_config.rules.iter().position(|rule| rule == input_rule)`. -/
def matchIdx (full_rules : List InputRule) (r : InputRule) : Option Nat :=
  positionFrom (fun rule => ruleContentEq rule r) full_rules

/-- The call-scoped working data of the diff loop. -/
structure DiffAcc where
  rule_ids : List RuleId
  new_rules : List (RuleId × StorableRule)
  incidents_map : List (IncidentId × Finset RuleId)

/-- `incidents_map.entry(iid).or_default().insert(rid)`.  The Rust `HashMap`
is modelled as an association list keyed in first-touch order; commit effects
on distinct incident keys commute, so the fixed order is observationally
faithful to any `HashMap` iteration order. -/
def insertIncidentMap (m : List (IncidentId × Finset RuleId)) (iid : IncidentId)
    (rid : RuleId) : List (IncidentId × Finset RuleId) :=
  match m with
  | [] => [(iid, {rid})]
  | (k, rset) :: rest =>
      if k = iid then (k, insert rid rset) :: rest
      else (k, rset) :: insertIncidentMap rest iid rid

/-- The per-rule diff loop of `add_config` (source lines 106–157).  One random
draw is consumed per brand-new rule; `draws k` is the k-th draw of the secure
random source (assumed, per the spec, to deliver bytes without failing).
Returns `none` for a Rust panic (the unchecked `current_config.rule_ids[idx]`
indexing), `some (.error e)` for an early return, `some (.ok acc)` otherwise. -/
def processRules (s : CanisterState) (next_version : Version)
    (full_rules : List InputRule) (prev_rule_ids : List RuleId) (draws : Nat → RuleId) :
    List InputRule → Nat → DiffAcc → Option (Except AddConfigError DiffAcc)
  | [], _, acc => some (.ok acc)
  | input_rule :: rest, rule_idx, acc =>
    match matchIdx full_rules input_rule with
    | some j =>
      match prev_rule_ids[j]? with
      | none => none
      | some rule_id =>
          processRules s next_version full_rules prev_rule_ids draws rest (rule_idx + 1)
            { rule_ids := acc.rule_ids ++ [rule_id]
              new_rules := acc.new_rules
              incidents_map := insertIncidentMap acc.incidents_map input_rule.incident_id rule_id }
    | none =>
      let rule_id := draws acc.new_rules.length
      if (s.rules rule_id).isSome then
        some (.error (.Internal "Failed to generate a new uuid, please retry the operation."))
      else
        match s.incidents input_rule.incident_id with
        | some incident =>
          if incident.is_disclosed then
            some (.error (.LinkingRuleToDisclosedIncident rule_idx input_rule.incident_id))
          else
            processRules s next_version full_rules prev_rule_ids draws rest (rule_idx + 1)
              { rule_ids := acc.rule_ids ++ [rule_id]
                new_rules := acc.new_rules ++ [(rule_id, mkNewStorableRule next_version input_rule)]
                incidents_map := insertIncidentMap acc.incidents_map input_rule.incident_id rule_id }
        | none =>
            processRules s next_version full_rules prev_rule_ids draws rest (rule_idx + 1)
              { rule_ids := acc.rule_ids ++ [rule_id]
                new_rules := acc.new_rules ++ [(rule_id, mkNewStorableRule next_version input_rule)]
                incidents_map := insertIncidentMap acc.incidents_map input_rule.incident_id rule_id }

/-- `removed_rule_ids` (source lines 159–166). -/
def removedRuleIds (prev_ids next_ids : List RuleId) : List RuleId :=
  prev_ids.filter (fun rid => decide (rid ∉ next_ids))

/-- Commit step 1: set `removed_in_version` on every removed rule; `none`
models the `.expect` panic when a removed rule is missing from storage. -/
def commitRemoved (next_version : Version) :
    CanisterState → List RuleId → Option CanisterState
  | s, [] => some s
  | s, rid :: rest =>
    match s.rules rid with
    | none => none
    | some rule =>
        commitRemoved next_version
          (upsert_rule s rid { rule with removed_in_version := some next_version }) rest

/-- Commit step 2: insert the new rules. -/
def commitNew : CanisterState → List (RuleId × StorableRule) → CanisterState
  | s, [] => s
  | s, (rid, r) :: rest => commitNew (upsert_rule s rid r) rest

/-- The incident written at commit time: merge into the existing membership, or
create with `is_disclosed = false` (source lines 220–230). -/
def applyIncident (existing : Option StorableIncident) (rids : Finset RuleId) :
    StorableIncident :=
  match existing with
  | some stored => { stored with rule_ids := stored.rule_ids ∪ rids }
  | none => { is_disclosed := false, rule_ids := rids }

/-- Commit step 3: upsert every touched incident. -/
def commitIncidents : CanisterState → List (IncidentId × Finset RuleId) → CanisterState
  | s, [] => s
  | s, (iid, rids) :: rest =>
      commitIncidents (upsert_incident s iid (applyIncident (get_incident s iid) rids)) rest

/-- `commit_changes` (source lines 196–237). -/
def commit_changes (s : CanisterState) (next_version : Version)
    (storable_config : StorableConfig) (removed_rules : List RuleId)
    (new_rules : List (RuleId × StorableRule))
    (incidents_map : List (IncidentId × Finset RuleId)) : Option CanisterState :=
  (commitRemoved next_version s removed_rules).map fun s1 =>
    storage_add_config (commitIncidents (commitNew s1 new_rules) incidents_map)
      next_version storable_config

/-- Outcome of one `add_config` call: success and failure carry the resulting
store (failures perform no mutation, so they carry the input store);
`panicked` models a Rust panic. -/
inductive AddResult where
  | success (s : CanisterState)
  | failure (e : AddConfigError) (s : CanisterState)
  | panicked

/-- `AddsConfig::add_config` (source lines 62–184). -/
def add_config (s : CanisterState) (input_config : ApiInputConfig) (time : Timestamp)
    (draws : Nat → RuleId) : AddResult :=
  match inputConfigTryFrom input_config with
  | .error e => .failure (.InvalidInputConfig e) s
  | .ok next_config =>
    match get_version s with
    | none => .failure (.Internal "No existing config version found") s
    | some current_version =>
      match get_config s current_version with
      | none => .failure (.Internal "No config for version found") s
      | some current_config =>
        match get_full_config s current_version with
        | none => .failure (.Internal "No config for version found") s
        | some current_full_config =>
          match checkedAddOne current_version with
          | none =>
              .failure (.Internal "Overflow occurred while incrementing the current version") s
          | some next_version =>
            match processRules s next_version current_full_config.rules
                current_config.rule_ids draws next_config.rules 0 ⟨[], [], []⟩ with
            | none => .panicked
            | some (.error e) => .failure e s
            | some (.ok acc) =>
              let removed := removedRuleIds current_config.rule_ids acc.rule_ids
              let storable_config : StorableConfig :=
                ⟨next_config.schema_version, time, acc.rule_ids⟩
              match commit_changes s next_version storable_config removed
                  acc.new_rules acc.incidents_map with
              | none => .panicked
              | some s2 => .success s2

def mapKeys (m : List (IncidentId × Finset RuleId)) : List IncidentId := m.map Prod.fst

/-- Association-list lookup in the incidents working map. -/
def mapLookup (m : List (IncidentId × Finset RuleId)) (iid : IncidentId) :
    Option (Finset RuleId) :=
  match m with
  | [] => none
  | (k, rset) :: rest => if k = iid then some rset else mapLookup rest iid

/-- Folding a list of `(incident, rule id)` links into the working map. -/
def foldPairs (m : List (IncidentId × Finset RuleId)) (ps : List (IncidentId × RuleId)) :
    List (IncidentId × Finset RuleId) :=
  ps.foldl (fun acc p => insertIncidentMap acc p.1 p.2) m

/-- Specification-side description of the ordered id list produced by the diff
loop: reused rules take the previous id at the matched position, new rules take
successive random draws starting at draw index `c`. -/
def specIds (full : List InputRule) (prev_ids : List RuleId) (draws : Nat → RuleId) :
    List InputRule → Nat → List RuleId
  | [], _ => []
  | r :: rest, c =>
    match matchIdx full r with
    | some j => prev_ids.getD j default :: specIds full prev_ids draws rest c
    | none => draws c :: specIds full prev_ids draws rest (c + 1)

/-- Specification-side description of the pending new `(RuleId, Rule)` records
produced by the diff loop. -/
def specNewRules (full : List InputRule) (next_version : Version) (draws : Nat → RuleId) :
    List InputRule → Nat → List (RuleId × StorableRule)
  | [], _ => []
  | r :: rest, c =>
    match matchIdx full r with
    | some _ => specNewRules full next_version draws rest c
    | none =>
        (draws c, mkNewStorableRule next_version r) ::
          specNewRules full next_version draws rest (c + 1)

/-- Specification-side `(incident, rule id)` links contributed by a submission. -/
def specPairs (full : List InputRule) (prev_ids : List RuleId) (draws : Nat → RuleId)
    (sub : List InputRule) (c : Nat) : List (IncidentId × RuleId) :=
  (sub.map InputRule.incident_id).zip (specIds full prev_ids draws sub c)

/-- Number of brand-new rules among the first `i` submitted rules. -/
def newRuleCountBefore (full : List InputRule) (sub : List InputRule) (i : Nat) : Nat :=
  (sub.take i).countP (fun x => (matchIdx full x).isNone)

/-- The id assigned to the `i`-th submitted rule: the previous version's id at
the matched position for a reused rule, or the next random draw for a new one. -/
def specAssignedId (full : List InputRule) (prev_ids : List RuleId) (draws : Nat → RuleId)
    (sub : List InputRule) (c i : Nat) : Option RuleId :=
  match sub[i]? with
  | none => none
  | some r =>
    match matchIdx full r with
    | some j => some (prev_ids.getD j default)
    | none => some (draws (c + newRuleCountBefore full sub i))

/-- The set of rule ids the submission links to incident `iid`. -/
def specLinkedIds (full : List InputRule) (prev_ids : List RuleId) (draws : Nat → RuleId)
    (sub : List InputRule) (iid : IncidentId) : Finset RuleId :=
  (((specPairs full prev_ids draws sub 0).filter (fun p => decide (p.1 = iid))).map
    Prod.snd).toFinset

/-- Membership set of an optional stored incident. -/
def incidentMembers (o : Option StorableIncident) : Finset RuleId :=
  match o with
  | some inc => inc.rule_ids
  | none => ∅

/-- A submitted rule that trips the disclosure policy: no content match among
the previous version's active rules, and its target incident is stored with
`is_disclosed = true`.  Reused (content-matched) rules never offend. -/
def offendsPolicy (s : CanisterState) (full_rules : List InputRule) (r : InputRule) : Bool :=
  (matchIdx full_rules r).isNone &&
    (match s.incidents r.incident_id with
     | some inc => inc.is_disclosed
     | none => false)

/-- Two entries of a validated submission are content-equal. -/
def contentDupAt (rules : List InputRule) (i j : Nat) : Prop :=
  i < j ∧ ∃ ri rj, rules[i]? = some ri ∧ rules[j]? = some rj ∧ ruleContentEq ri rj = true

/-- Whether an `add_config` call succeeded. -/
def isSuccess : AddResult → Bool
  | .success _ => true
  | _ => false

/-! ### Concrete example data (used in closed instance checks) -/

def exIncidentA : IncidentId := ⟨1⟩

def exIncidentB : IncidentId := ⟨2⟩

def exJson1 : JsonValue := ⟨1⟩

def exJson2 : JsonValue := ⟨2⟩

/-- A rule under incident A, in its original byte encoding. -/
def exRuleA : InputRule := ⟨exIncidentA, .wellFormed exJson1 0, "rule a"⟩

/-- The same rule content as `exRuleA`, re-encoded (different bytes, same
canonical value). -/
def exRuleA2 : InputRule := ⟨exIncidentA, .wellFormed exJson1 1, "rule a"⟩

def exRuleB : InputRule := ⟨exIncidentB, .wellFormed exJson2 0, "rule b"⟩

def exDraws : Nat → RuleId := fun k => ⟨100 + k⟩

def exEmptyState : CanisterState :=
  { version := none
    configs := fun _ => none
    rules := fun _ => none
    incidents := fun _ => none }

def exStoredRuleA : StorableRule :=
  { incident_id := exIncidentA
    rule_raw := .wellFormed exJson1 0
    description := "rule a"
    disclosed_at := none
    added_in_version := 1
    removed_in_version := none }

/-- A store at version 1 holding one active rule (id 7) linked to incident A. -/
def exStateOne : CanisterState :=
  { version := some 1
    configs := fun w => if w = 1 then some ⟨1, 10, [⟨7⟩]⟩ else none
    rules := fun rid => if rid = ⟨7⟩ then some exStoredRuleA else none
    incidents := fun iid => if iid = exIncidentA then some ⟨false, {⟨7⟩}⟩ else none }

/-- A store at version 1 with an empty config and incident B already disclosed. -/
def exStateDisclosed : CanisterState :=
  { version := some 1
    configs := fun w => if w = 1 then some ⟨1, 10, []⟩ else none
    rules := fun _ => none
    incidents := fun iid => if iid = exIncidentB then some ⟨true, ∅⟩ else none }

def exApiRuleA : ApiInputRule := ⟨.wellFormed exIncidentA 0, .wellFormed exJson1 0, "rule a"⟩

def exApiRuleA2 : ApiInputRule := ⟨.wellFormed exIncidentA 0, .wellFormed exJson1 1, "rule a"⟩

def exApiRuleB : ApiInputRule := ⟨.wellFormed exIncidentB 0, .wellFormed exJson2 0, "rule b"⟩

def exApiRuleBadUuid : ApiInputRule := ⟨.malformed 0, .wellFormed exJson1 0, ""⟩

def exApiRuleBadJson : ApiInputRule := ⟨.wellFormed exIncidentA 0, .malformed 0, ""⟩

def exInputEmpty : ApiInputConfig := ⟨1, []⟩

def exInputA2 : ApiInputConfig := ⟨2, [exApiRuleA2]⟩

def exInputB : ApiInputConfig := ⟨1, [exApiRuleB]⟩

def exInputBadUuid : ApiInputConfig := ⟨1, [exApiRuleBadUuid]⟩

/-! ### Basic lemmas -/

theorem getD_of_getElem? {α : Type} [Inhabited α] {ls : List α} {j : Nat} {x : α}
    (h : ls[j]? = some x) : ls.getD j default = x := by
  induction ls generalizing j with
  | nil => simp at h
  | cons a t ih =>
    cases j with
    | zero => simp at h; simp [h]
    | succ n => simp at h; simpa [List.getD] using ih h

theorem lt_length_of_getElem? {α : Type} {ls : List α} {j : Nat} {x : α}
    (h : ls[j]? = some x) : j < ls.length :=
  (List.getElem?_eq_some.mp h).1

theorem positionFrom_sound {α : Type} {p : α → Bool} {l : List α} {n : Nat}
    (h : positionFrom p l = some n) : ∃ x, l[n]? = some x ∧ p x = true := by
  induction l generalizing n with
  | nil => simp [positionFrom] at h
  | cons a t ih =>
    by_cases hp : p a
    · simp [positionFrom, hp] at h
      subst h
      exact ⟨a, by simp, hp⟩
    · simp [positionFrom, hp] at h
      obtain ⟨m, hm, rfl⟩ := h
      obtain ⟨x, hx, hpx⟩ := ih hm
      exact ⟨x, by simpa using hx, hpx⟩

theorem positionFrom_min {α : Type} {p : α → Bool} {l : List α} {n : Nat}
    (h : positionFrom p l = some n) :
    ∀ (m : Nat) (x : α), m < n → l[m]? = some x → p x = false := by
  induction l generalizing n with
  | nil => simp [positionFrom] at h
  | cons a t ih =>
    intro m x hm hx
    by_cases hp : p a
    · simp [positionFrom, hp] at h
      omega
    · simp [positionFrom, hp] at h
      obtain ⟨k, hk, rfl⟩ := h
      cases m with
      | zero =>
        simp at hx
        subst hx
        simpa using hp
      | succ m' =>
        simp at hx
        exact ih hk m' x (by omega) hx

theorem positionFrom_none {α : Type} {p : α → Bool} {l : List α}
    (h : positionFrom p l = none) :
    ∀ (m : Nat) (x : α), l[m]? = some x → p x = false := by
  induction l with
  | nil => intro m x hx; simp at hx
  | cons a t ih =>
    by_cases hp : p a
    · simp [positionFrom, hp] at h
    · simp [positionFrom, hp] at h
      intro m x hx
      cases m with
      | zero => simp at hx; subst hx; simpa using hp
      | succ m' => simp at hx; exact ih h m' x hx

theorem positionFrom_of {α : Type} {p : α → Bool} {l : List α} {n : Nat} {x : α}
    (hx : l[n]? = some x) (hpx : p x = true)
    (hmin : ∀ m y, m < n → l[m]? = some y → p y = false) :
    positionFrom p l = some n := by
  induction l generalizing n with
  | nil => simp at hx
  | cons a t ih =>
    cases n with
    | zero =>
      simp at hx
      subst hx
      simp [positionFrom, hpx]
    | succ n' =>
      have ha : p a = false := hmin 0 a (by omega) (by simp)
      simp at hx
      have := ih hx (fun m y hm hy => hmin (m + 1) y (by omega) (by simpa using hy))
      simp [positionFrom, ha, this]

theorem ruleContentEq_iff {a b : InputRule} :
    ruleContentEq a b = true ↔
      (a.incident_id = b.incident_id ∧ parseRuleRaw a.rule_raw = parseRuleRaw b.rule_raw ∧
        a.description = b.description) := by
  simp [ruleContentEq]

theorem ruleContentEq_symm {a b : InputRule} (h : ruleContentEq a b = true) :
    ruleContentEq b a = true := by
  rw [ruleContentEq_iff] at h ⊢
  exact ⟨h.1.symm, h.2.1.symm, h.2.2.symm⟩

theorem ruleContentEq_trans {a b c : InputRule} (hab : ruleContentEq a b = true)
    (hbc : ruleContentEq b c = true) : ruleContentEq a c = true := by
  rw [ruleContentEq_iff] at hab hbc ⊢
  exact ⟨hab.1.trans hbc.1, hab.2.1.trans hbc.2.1, hab.2.2.trans hbc.2.2⟩

theorem specIds_length (full : List InputRule) (prev_ids : List RuleId)
    (draws : Nat → RuleId) :
    ∀ (sub : List InputRule) (c : Nat),
      (specIds full prev_ids draws sub c).length = sub.length := by
  intro sub
  induction sub with
  | nil => intro c; simp [specIds]
  | cons r rest ih =>
    intro c
    cases hm : matchIdx full r <;> simp [specIds, hm, ih]

theorem specIds_getElem? (full : List InputRule) (prev_ids : List RuleId)
    (draws : Nat → RuleId) :
    ∀ (sub : List InputRule) (c i : Nat),
      (specIds full prev_ids draws sub c)[i]? = specAssignedId full prev_ids draws sub c i := by
  intro sub
  induction sub with
  | nil => intro c i; simp [specIds, specAssignedId]
  | cons r rest ih =>
    intro c i
    cases hm : matchIdx full r with
    | some j =>
      cases i with
      | zero => simp [specIds, hm, specAssignedId]
      | succ i' =>
        simp only [specIds, hm, List.getElem?_cons_succ]
        rw [ih]
        simp only [specAssignedId, newRuleCountBefore, List.getElem?_cons_succ, List.take_succ_cons,
          List.countP_cons, hm]
        simp
    | none =>
      cases i with
      | zero => simp [specIds, hm, specAssignedId, newRuleCountBefore]
      | succ i' =>
        simp only [specIds, hm, List.getElem?_cons_succ]
        rw [ih]
        simp only [specAssignedId, newRuleCountBefore, List.getElem?_cons_succ, List.take_succ_cons,
          List.countP_cons, hm]
        cases hr : rest[i']? with
        | none => simp
        | some x =>
          cases hmx : matchIdx full x with
          | some j' => simp [hmx]
          | none =>
            simp only [hmx, Option.isNone_none, if_true]
            have : c + 1 + (rest.take i').countP (fun x => (matchIdx full x).isNone) =
                c + ((rest.take i').countP (fun x => (matchIdx full x).isNone) + 1) := by omega
            simp [this]

theorem processRules_ok_spec (s : CanisterState) (nv : Version)
    (full : List InputRule) (prev_ids : List RuleId) (draws : Nat → RuleId) :
    ∀ (sub : List InputRule) (idx : Nat) (acc acc' : DiffAcc),
      processRules s nv full prev_ids draws sub idx acc = some (.ok acc') →
      acc'.rule_ids =
          acc.rule_ids ++ specIds full prev_ids draws sub acc.new_rules.length ∧
      acc'.new_rules =
          acc.new_rules ++ specNewRules full nv draws sub acc.new_rules.length ∧
      acc'.incidents_map =
          foldPairs acc.incidents_map
            (specPairs full prev_ids draws sub acc.new_rules.length) ∧
      ∀ p ∈ specNewRules full nv draws sub acc.new_rules.length, s.rules p.1 = none := by
  intro sub
  induction sub with
  | nil =>
    intro idx acc acc' h
    simp [processRules] at h
    subst h
    simp [specIds, specNewRules, specPairs, foldPairs]
  | cons r rest ih =>
    intro idx acc acc' h
    cases hm : matchIdx full r with
    | some j =>
      simp only [processRules, hm] at h
      cases hj : prev_ids[j]? with
      | none => simp [hj] at h
      | some rid =>
        simp only [hj] at h
        obtain ⟨h1, h2, h3, h4⟩ := ih (idx + 1) _ acc' h
        simp only [List.length_append, List.length_cons, List.length_nil] at h1 h2 h3 h4
        have hgd : prev_ids.getD j default = rid := getD_of_getElem? hj
        refine ⟨?_, ?_, ?_, ?_⟩
        · rw [h1]
          simp [specIds, hm, hj, List.append_assoc]
        · rw [h2]
          simp [specNewRules, hm]
        · rw [h3]
          simp [specPairs, specIds, hm, hj, foldPairs]
        · intro p hp
          apply h4
          simpa [specNewRules, hm] using hp
    | none =>
      simp only [processRules, hm] at h
      cases hsr : s.rules (draws acc.new_rules.length) with
      | some rold => simp [hsr] at h
      | none =>
        simp only [hsr, Option.isSome_none, Bool.false_eq_true, if_false] at h
        have assemble :
            processRules s nv full prev_ids draws rest (idx + 1)
              { rule_ids := acc.rule_ids ++ [draws acc.new_rules.length]
                new_rules :=
                  acc.new_rules ++ [(draws acc.new_rules.length, mkNewStorableRule nv r)]
                incidents_map :=
                  insertIncidentMap acc.incidents_map r.incident_id
                    (draws acc.new_rules.length) } = some (.ok acc') →
            acc'.rule_ids =
                acc.rule_ids ++ specIds full prev_ids draws (r :: rest) acc.new_rules.length ∧
            acc'.new_rules =
                acc.new_rules ++ specNewRules full nv draws (r :: rest) acc.new_rules.length ∧
            acc'.incidents_map =
                foldPairs acc.incidents_map
                  (specPairs full prev_ids draws (r :: rest) acc.new_rules.length) ∧
            ∀ p ∈ specNewRules full nv draws (r :: rest) acc.new_rules.length,
              s.rules p.1 = none := by
          intro hrec
          obtain ⟨h1, h2, h3, h4⟩ := ih (idx + 1) _ acc' hrec
          simp only [List.length_append, List.length_cons, List.length_nil] at h1 h2 h3 h4
          refine ⟨?_, ?_, ?_, ?_⟩
          · rw [h1]
            simp [specIds, hm, List.append_assoc]
          · rw [h2]
            simp [specNewRules, hm, List.append_assoc]
          · rw [h3]
            simp [specPairs, specIds, hm, foldPairs]
          · intro p hp
            simp only [specNewRules, hm, List.mem_cons] at hp
            rcases hp with hp | hp
            · subst hp; exact hsr
            · exact h4 p hp
        cases hinc : s.incidents r.incident_id with
        | some incident =>
          simp only [hinc] at h
          cases hd : incident.is_disclosed with
          | true => simp [hd] at h
          | false =>
            simp only [hd, Bool.false_eq_true, if_false] at h
            exact assemble h
        | none =>
          simp only [hinc] at h
          exact assemble h

theorem specNewRules_mem_of (full : List InputRule) (nv : Version) (draws : Nat → RuleId) :
    ∀ (sub : List InputRule) (c i : Nat) (r : InputRule),
      sub[i]? = some r → matchIdx full r = none →
      (draws (c + newRuleCountBefore full sub i), mkNewStorableRule nv r) ∈
        specNewRules full nv draws sub c := by
  intro sub
  induction sub with
  | nil => intro c i r hr _; simp at hr
  | cons a rest ih =>
    intro c i r hr hm
    cases i with
    | zero =>
      simp at hr
      subst hr
      simp [specNewRules, hm, newRuleCountBefore]
    | succ i' =>
      simp at hr
      cases hma : matchIdx full a with
      | some j =>
        have h2 := ih c i' r hr hm
        have he : newRuleCountBefore full (a :: rest) (i' + 1) =
            newRuleCountBefore full rest i' := by
          simp [newRuleCountBefore, List.countP_cons, hma]
        rw [he]
        simpa only [specNewRules, hma] using h2
      | none =>
        have h2 := ih (c + 1) i' r hr hm
        have he : c + newRuleCountBefore full (a :: rest) (i' + 1) =
            c + 1 + newRuleCountBefore full rest i' := by
          simp [newRuleCountBefore, List.countP_cons, hma]
          omega
        rw [he]
        simp only [specNewRules, hma]
        exact List.mem_cons_of_mem _ h2

theorem specNewRules_key_ge (full : List InputRule) (nv : Version) (draws : Nat → RuleId) :
    ∀ (sub : List InputRule) (c : Nat) (p : RuleId × StorableRule),
      p ∈ specNewRules full nv draws sub c → ∃ m, c ≤ m ∧ p.1 = draws m := by
  intro sub
  induction sub with
  | nil => intro c p hp; simp [specNewRules] at hp
  | cons a rest ih =>
    intro c p hp
    cases hma : matchIdx full a with
    | some j =>
      simp only [specNewRules, hma] at hp
      exact ih c p hp
    | none =>
      simp only [specNewRules, hma, List.mem_cons] at hp
      rcases hp with hp | hp
      · exact ⟨c, le_refl c, by rw [hp]⟩
      · obtain ⟨m, hm1, hm2⟩ := ih (c + 1) p hp
        exact ⟨m, by omega, hm2⟩

theorem specNewRules_keys_nodup (full : List InputRule) (nv : Version)
    (draws : Nat → RuleId) (hinj : Function.Injective draws) :
    ∀ (sub : List InputRule) (c : Nat),
      ((specNewRules full nv draws sub c).map Prod.fst).Nodup := by
  intro sub
  induction sub with
  | nil => intro c; simp [specNewRules]
  | cons a rest ih =>
    intro c
    cases hma : matchIdx full a with
    | some j =>
      simp only [specNewRules, hma]
      exact ih c
    | none =>
      simp only [specNewRules, hma, List.map_cons]
      rw [List.nodup_cons]
      refine ⟨?_, ih (c + 1)⟩
      intro hmem
      obtain ⟨p, hp, he⟩ := List.mem_map.mp hmem
      obtain ⟨m, hm1, hm2⟩ := specNewRules_key_ge full nv draws rest (c + 1) p hp
      rw [hm2] at he
      have := hinj he
      omega

theorem mapLookup_insertIncidentMap (m : List (IncidentId × Finset RuleId))
    (iid : IncidentId) (rid : RuleId) (x : IncidentId) :
    mapLookup (insertIncidentMap m iid rid) x =
      if x = iid then some (insert rid ((mapLookup m iid).getD ∅)) else mapLookup m x := by
  induction m with
  | nil =>
    by_cases hx : x = iid
    · subst hx
      simp [insertIncidentMap, mapLookup]
    · have hx' : ¬(iid = x) := fun h => hx h.symm
      simp [insertIncidentMap, mapLookup, hx, hx']
  | cons kv rest ih =>
    obtain ⟨k, rset⟩ := kv
    by_cases hk : k = iid
    · subst hk
      by_cases hx : x = k
      · subst hx
        simp [insertIncidentMap, mapLookup]
      · have hx' : ¬(k = x) := fun h => hx h.symm
        simp [insertIncidentMap, mapLookup, hx, hx']
    · have hk' : ¬(iid = k) := fun h => hk h.symm
      by_cases hx : x = k
      · subst hx
        have hxi : ¬(x = iid) := fun h => hk' (h ▸ rfl)
        simp [insertIncidentMap, mapLookup, hk, hxi]
      · have hx' : ¬(k = x) := fun h => hx h.symm
        by_cases hxi : x = iid
        · subst hxi
          simp [insertIncidentMap, mapLookup, hk, hx', ih]
        · simp [insertIncidentMap, mapLookup, hk, hx', hxi, ih]

theorem insertIncidentMap_cons_self (k : IncidentId) (rset : Finset RuleId)
    (rest : List (IncidentId × Finset RuleId)) (rid : RuleId) :
    insertIncidentMap ((k, rset) :: rest) k rid = (k, insert rid rset) :: rest := by
  simp [insertIncidentMap]

theorem insertIncidentMap_cons_ne (k : IncidentId) (rset : Finset RuleId)
    (rest : List (IncidentId × Finset RuleId)) (iid : IncidentId) (rid : RuleId)
    (h : ¬(k = iid)) :
    insertIncidentMap ((k, rset) :: rest) iid rid =
      (k, rset) :: insertIncidentMap rest iid rid := by
  simp [insertIncidentMap, h]

theorem mem_mapKeys_insertIncidentMap {m : List (IncidentId × Finset RuleId)}
    {iid : IncidentId} {rid : RuleId} {x : IncidentId}
    (h : x ∈ mapKeys (insertIncidentMap m iid rid)) : x ∈ mapKeys m ∨ x = iid := by
  induction m with
  | nil =>
    simp [insertIncidentMap, mapKeys] at h
    exact Or.inr h
  | cons kv rest ih =>
    obtain ⟨k, rset⟩ := kv
    by_cases hk : k = iid
    · subst hk
      rw [insertIncidentMap_cons_self] at h
      simp only [mapKeys, List.map_cons, List.mem_cons] at h ⊢
      tauto
    · rw [insertIncidentMap_cons_ne _ _ _ _ _ hk] at h
      simp only [mapKeys, List.map_cons, List.mem_cons] at h ⊢
      rcases h with h | h
      · tauto
      · rcases ih h with h2 | h2
        · tauto
        · tauto

theorem nodup_mapKeys_insertIncidentMap {m : List (IncidentId × Finset RuleId)}
    {iid : IncidentId} {rid : RuleId} (h : (mapKeys m).Nodup) :
    (mapKeys (insertIncidentMap m iid rid)).Nodup := by
  induction m with
  | nil => simp [insertIncidentMap, mapKeys]
  | cons kv rest ih =>
    obtain ⟨k, rset⟩ := kv
    simp only [mapKeys, List.map_cons, List.nodup_cons] at h
    by_cases hk : k = iid
    · subst hk
      rw [insertIncidentMap_cons_self]
      simp only [mapKeys, List.map_cons, List.nodup_cons]
      exact ⟨h.1, h.2⟩
    · rw [insertIncidentMap_cons_ne _ _ _ _ _ hk]
      simp only [mapKeys, List.map_cons, List.nodup_cons]
      refine ⟨?_, ih h.2⟩
      intro hmem
      rcases mem_mapKeys_insertIncidentMap hmem with h2 | h2
      · exact h.1 h2
      · exact hk h2

theorem mapLookup_none_of_not_mem_keys {m : List (IncidentId × Finset RuleId)}
    {x : IncidentId} (h : x ∉ mapKeys m) : mapLookup m x = none := by
  induction m with
  | nil => simp [mapLookup]
  | cons kv rest ih =>
    obtain ⟨k, rset⟩ := kv
    simp only [mapKeys, List.map_cons, List.mem_cons] at h
    push_neg at h
    simp only [mapLookup, if_neg (fun he : k = x => h.1 he.symm)]
    exact ih h.2

theorem foldPairs_cons (m : List (IncidentId × Finset RuleId)) (p : IncidentId × RuleId)
    (ps : List (IncidentId × RuleId)) :
    foldPairs m (p :: ps) = foldPairs (insertIncidentMap m p.1 p.2) ps := rfl

theorem nodup_mapKeys_foldPairs (ps : List (IncidentId × RuleId)) :
    ∀ m, (mapKeys m).Nodup → (mapKeys (foldPairs m ps)).Nodup := by
  induction ps with
  | nil => intro m h; exact h
  | cons p ps ih =>
    intro m h
    rw [foldPairs_cons]
    exact ih _ (nodup_mapKeys_insertIncidentMap h)

theorem mapLookup_foldPairs (ps : List (IncidentId × RuleId)) :
    ∀ (m : List (IncidentId × Finset RuleId)) (x : IncidentId),
      mapLookup (foldPairs m ps) x =
        if ((ps.filter (fun p => decide (p.1 = x))).map Prod.snd) = [] then mapLookup m x
        else some (((mapLookup m x).getD ∅) ∪
          ((ps.filter (fun p => decide (p.1 = x))).map Prod.snd).toFinset) := by
  induction ps with
  | nil => intro m x; simp [foldPairs]
  | cons p ps ih =>
    intro m x
    rw [foldPairs_cons, ih]
    by_cases hp : p.1 = x
    · have hfil : (p :: ps).filter (fun q => decide (q.1 = x)) =
          p :: ps.filter (fun q => decide (q.1 = x)) := by
        simp [List.filter_cons, hp]
      rw [hfil]
      rw [mapLookup_insertIncidentMap]
      rw [if_pos hp.symm]
      subst hp
      by_cases hps : (ps.filter (fun q => decide (q.1 = p.1))).map Prod.snd = []
      · rw [if_pos hps]
        simp only [List.map_cons, hps]
        rw [if_neg (by simp)]
        congr 1
        ext y
        simp [Finset.mem_insert, Finset.mem_union]
        try tauto
      · rw [if_neg hps]
        simp only [List.map_cons]
        rw [if_neg (by simp)]
        congr 1
        ext y
        simp [Finset.mem_insert, Finset.mem_union]
        try tauto
    · have hfil : (p :: ps).filter (fun q => decide (q.1 = x)) =
          ps.filter (fun q => decide (q.1 = x)) := by
        simp [List.filter_cons, hp]
      rw [hfil]
      rw [mapLookup_insertIncidentMap]
      rw [if_neg (fun h : x = p.1 => hp h.symm)]

theorem commitRemoved_rules (nv : Version) :
    ∀ (l : List RuleId) (s s' : CanisterState),
      commitRemoved nv s l = some s' →
      ∀ rid, s'.rules rid =
        if rid ∈ l then
          (s.rules rid).map (fun r => { r with removed_in_version := some nv })
        else s.rules rid := by
  intro l
  induction l with
  | nil =>
    intro s s' h rid
    simp [commitRemoved] at h
    subst h
    simp
  | cons a rest ih =>
    intro s s' h rid
    simp only [commitRemoved] at h
    cases ha : s.rules a with
    | none => simp [ha] at h
    | some rule =>
      simp only [ha] at h
      have hr := ih _ _ h rid
      by_cases heq : rid = a
      · subst heq
        have hup : (upsert_rule s rid { rule with removed_in_version := some nv }).rules rid =
            some { rule with removed_in_version := some nv } := by simp [upsert_rule]
        rw [if_pos (List.mem_cons_self _ _), hr]
        by_cases h2 : rid ∈ rest
        · rw [if_pos h2, hup, ha]
          simp
        · rw [if_neg h2, hup, ha]
          simp
      · have hup : (upsert_rule s a { rule with removed_in_version := some nv }).rules rid =
            s.rules rid := by simp [upsert_rule, heq]
        rw [hr]
        by_cases h2 : rid ∈ rest
        · rw [if_pos h2, hup, if_pos (List.mem_cons_of_mem _ h2)]
        · rw [if_neg h2, hup, if_neg (by simp [heq, h2])]

theorem commitRemoved_frame (nv : Version) :
    ∀ (l : List RuleId) (s s' : CanisterState),
      commitRemoved nv s l = some s' →
      s'.configs = s.configs ∧ s'.version = s.version ∧ s'.incidents = s.incidents := by
  intro l
  induction l with
  | nil =>
    intro s s' h
    simp [commitRemoved] at h
    subst h
    exact ⟨rfl, rfl, rfl⟩
  | cons a rest ih =>
    intro s s' h
    simp only [commitRemoved] at h
    cases ha : s.rules a with
    | none => simp [ha] at h
    | some rule =>
      simp only [ha] at h
      have h3 := ih _ _ h
      simpa [upsert_rule] using h3

theorem commitNew_rules_not_mem :
    ∀ (l : List (RuleId × StorableRule)) (s : CanisterState) (rid : RuleId),
      rid ∉ l.map Prod.fst → (commitNew s l).rules rid = s.rules rid := by
  intro l
  induction l with
  | nil => intro s rid _; rfl
  | cons p rest ih =>
    obtain ⟨k, r⟩ := p
    intro s rid hmem
    simp only [List.map_cons, List.mem_cons] at hmem
    push_neg at hmem
    simp only [commitNew]
    rw [ih _ rid hmem.2]
    simp [upsert_rule, hmem.1]

theorem commitNew_rules_mem :
    ∀ (l : List (RuleId × StorableRule)) (s : CanisterState) (rid : RuleId) (r : StorableRule),
      (l.map Prod.fst).Nodup → (rid, r) ∈ l → (commitNew s l).rules rid = some r := by
  intro l
  induction l with
  | nil => intro s rid r _ hmem; simp at hmem
  | cons p rest ih =>
    obtain ⟨k, rr⟩ := p
    intro s rid r hnd hmem
    simp only [List.map_cons, List.nodup_cons] at hnd
    simp only [List.mem_cons] at hmem
    rcases hmem with hmem | hmem
    · injection hmem with h1 h2
      subst h1
      subst h2
      simp only [commitNew]
      rw [commitNew_rules_not_mem _ _ _ hnd.1]
      simp [upsert_rule]
    · exact (by simp only [commitNew]; exact ih _ rid r hnd.2 hmem)

theorem commitNew_frame :
    ∀ (l : List (RuleId × StorableRule)) (s : CanisterState),
      (commitNew s l).configs = s.configs ∧ (commitNew s l).version = s.version ∧
      (commitNew s l).incidents = s.incidents := by
  intro l
  induction l with
  | nil => intro s; exact ⟨rfl, rfl, rfl⟩
  | cons p rest ih =>
    obtain ⟨k, r⟩ := p
    intro s
    simp only [commitNew]
    exact ih _

theorem commitIncidents_frame :
    ∀ (m : List (IncidentId × Finset RuleId)) (s : CanisterState),
      (commitIncidents s m).rules = s.rules ∧ (commitIncidents s m).configs = s.configs ∧
      (commitIncidents s m).version = s.version := by
  intro m
  induction m with
  | nil => intro s; exact ⟨rfl, rfl, rfl⟩
  | cons p rest ih =>
    obtain ⟨k, rids⟩ := p
    intro s
    simp only [commitIncidents]
    exact ih _

theorem commitIncidents_incidents :
    ∀ (m : List (IncidentId × Finset RuleId)) (s : CanisterState),
      (mapKeys m).Nodup →
      ∀ iid, (commitIncidents s m).incidents iid =
        match mapLookup m iid with
        | some rids => some (applyIncident (s.incidents iid) rids)
        | none => s.incidents iid := by
  intro m
  induction m with
  | nil => intro s _ iid; simp [commitIncidents, mapLookup]
  | cons p rest ih =>
    obtain ⟨k, rids⟩ := p
    intro s hnd iid
    simp only [mapKeys, List.map_cons, List.nodup_cons] at hnd
    simp only [commitIncidents]
    rw [ih _ hnd.2 iid]
    by_cases hik : k = iid
    · subst hik
      have hnone : mapLookup rest k = none :=
        mapLookup_none_of_not_mem_keys hnd.1
      rw [hnone]
      simp only [mapLookup, if_pos rfl]
      simp [upsert_incident, get_incident]
    · have hup : (upsert_incident s k (applyIncident (get_incident s k) rids)).incidents iid =
          s.incidents iid := by
        simp only [upsert_incident]
        rw [if_neg (fun h : iid = k => hik h.symm)]
      simp only [mapLookup, if_neg hik]
      cases hL : mapLookup rest iid with
      | none => simp [hL, hup]
      | some rr => simp [hL, hup]

theorem commit_changes_some_inv {s : CanisterState} {nv : Version} {conf : StorableConfig}
    {removed : List RuleId} {newr : List (RuleId × StorableRule)}
    {incmap : List (IncidentId × Finset RuleId)} {post : CanisterState}
    (h : commit_changes s nv conf removed newr incmap = some post) :
    ∃ s1, commitRemoved nv s removed = some s1 ∧
      post = storage_add_config (commitIncidents (commitNew s1 newr) incmap) nv conf := by
  unfold commit_changes at h
  cases hc : commitRemoved nv s removed with
  | none => rw [hc] at h; simp at h
  | some s1 =>
    rw [hc] at h
    simp only [Option.map_some'] at h
    exact ⟨s1, rfl, (Option.some.inj h).symm⟩

theorem get_full_config_eq {s : CanisterState} {v : Version} {cfg : StorableConfig}
    (h : s.configs v = some cfg) :
    get_full_config s v =
      some ⟨cfg.schema_version, cfg.rule_ids.filterMap (resolveActiveRule s)⟩ := by
  simp [get_full_config, h]

theorem get_full_config_rules_length {s : CanisterState} {v : Version} {cfg : StorableConfig}
    {fc : InputConfig} (hc : s.configs v = some cfg) (hf : get_full_config s v = some fc) :
    fc.rules.length ≤ cfg.rule_ids.length := by
  rw [get_full_config_eq hc] at hf
  have := Option.some.inj hf
  subst this
  simpa using List.length_filterMap_le _ _

theorem add_config_success_inv {s : CanisterState} {input : ApiInputConfig} {time : Timestamp}
    {draws : Nat → RuleId} {post : CanisterState}
    (h : add_config s input time draws = .success post) :
    ∃ nc v cfg fc acc,
      inputConfigTryFrom input = .ok nc ∧
      s.version = some v ∧
      s.configs v = some cfg ∧
      get_full_config s v = some fc ∧
      v + 1 ≤ U64MAX ∧
      processRules s (v + 1) fc.rules cfg.rule_ids draws nc.rules 0 ⟨[], [], []⟩ =
        some (.ok acc) ∧
      commit_changes s (v + 1) ⟨nc.schema_version, time, acc.rule_ids⟩
        (removedRuleIds cfg.rule_ids acc.rule_ids) acc.new_rules acc.incidents_map =
        some post := by
  unfold add_config at h
  split at h
  · cases h
  next nc h1 =>
    split at h
    · cases h
    next v h2 =>
      split at h
      · cases h
      next cfg h3 =>
        split at h
        · cases h
        next fc h4 =>
          split at h
          · cases h
          next nv h5 =>
            have hnv : nv = v + 1 ∧ v + 1 ≤ U64MAX := by
              unfold checkedAddOne at h5
              by_cases hle : v + 1 ≤ U64MAX
              · rw [if_pos hle] at h5
                exact ⟨(Option.some.inj h5).symm, hle⟩
              · rw [if_neg hle] at h5
                simp at h5
            obtain ⟨he, hle⟩ := hnv
            subst he
            split at h
            · cases h
            · cases h
            next acc h6 =>
              simp only [] at h
              split at h
              · cases h
              next s2 h7 =>
                have hpost : s2 = post := by
                  injection h
                subst hpost
                exact ⟨nc, v, cfg, fc, acc, h1, h2, h3, h4, hle, h6, h7⟩

theorem commit_post_state {s : CanisterState} {nv : Version} {conf : StorableConfig}
    {removed : List RuleId} {newr : List (RuleId × StorableRule)}
    {incmap : List (IncidentId × Finset RuleId)} {post : CanisterState}
    (h : commit_changes s nv conf removed newr incmap = some post) :
    (∀ w, post.configs w = if w = nv then some conf else s.configs w) ∧
    post.version = some nv ∧
    (∀ rid, rid ∉ newr.map Prod.fst →
       post.rules rid =
         if rid ∈ removed then
           (s.rules rid).map (fun r => { r with removed_in_version := some nv })
         else s.rules rid) ∧
    ((newr.map Prod.fst).Nodup → ∀ rid r, (rid, r) ∈ newr → post.rules rid = some r) ∧
    ((mapKeys incmap).Nodup → ∀ iid,
       post.incidents iid =
         match mapLookup incmap iid with
         | some rids => some (applyIncident (s.incidents iid) rids)
         | none => s.incidents iid) := by
  obtain ⟨s1, hrem, rfl⟩ := commit_changes_some_inv h
  obtain ⟨hc1, hv1, hi1⟩ := commitRemoved_frame nv removed s s1 hrem
  obtain ⟨hc2, hv2, hi2⟩ := commitNew_frame newr s1
  obtain ⟨hr3, hc3, hv3⟩ := commitIncidents_frame incmap (commitNew s1 newr)
  refine ⟨?_, rfl, ?_, ?_, ?_⟩
  · intro w
    by_cases hw : w = nv
    · simp [storage_add_config, hw]
    · simp only [storage_add_config, if_neg hw]
      rw [hc3, hc2, hc1]
  · intro rid hmem
    have hsr : (storage_add_config (commitIncidents (commitNew s1 newr) incmap) nv
        conf).rules = (commitIncidents (commitNew s1 newr) incmap).rules := rfl
    rw [hsr, hr3, commitNew_rules_not_mem _ _ _ hmem]
    exact commitRemoved_rules nv removed s s1 hrem rid
  · intro hnd rid r hmem
    have hsr : (storage_add_config (commitIncidents (commitNew s1 newr) incmap) nv
        conf).rules = (commitIncidents (commitNew s1 newr) incmap).rules := rfl
    rw [hsr, hr3]
    exact commitNew_rules_mem _ _ _ _ hnd hmem
  · intro hnd iid
    have hsi : (storage_add_config (commitIncidents (commitNew s1 newr) incmap) nv
        conf).incidents = (commitIncidents (commitNew s1 newr) incmap).incidents := rfl
    rw [hsi, commitIncidents_incidents _ _ hnd iid, hi2, hi1]

theorem matchIdx_lt_length {full : List InputRule} {r : InputRule} {j : Nat}
    (h : matchIdx full r = some j) : j < full.length := by
  obtain ⟨x, hx, _⟩ := positionFrom_sound h
  exact lt_length_of_getElem? hx

theorem getElem?_eq_some_of_lt {α : Type} {l : List α} {j : Nat} (h : j < l.length) :
    ∃ x, l[j]? = some x := ⟨l[j], List.getElem?_eq_some.mpr ⟨h, rfl⟩⟩

theorem positionFrom_isSome_of {α : Type} {p : α → Bool} {ls : List α} {k : Nat} {x : α}
    (hx : ls[k]? = some x) (hpx : p x = true) : ∃ n, positionFrom p ls = some n := by
  cases hpos : positionFrom p ls with
  | none =>
    have := positionFrom_none hpos k x hx
    rw [hpx] at this
    cases this
  | some n => exact ⟨n, rfl⟩

theorem processRules_no_panic (s : CanisterState) (nv : Version) (full : List InputRule)
    (prev_ids : List RuleId) (draws : Nat → RuleId)
    (hlen : full.length ≤ prev_ids.length) :
    ∀ (sub : List InputRule) (idx : Nat) (acc : DiffAcc),
      processRules s nv full prev_ids draws sub idx acc ≠ none := by
  intro sub
  induction sub with
  | nil => intro idx acc; simp [processRules]
  | cons a rest ih =>
    intro idx acc
    cases hm : matchIdx full a with
    | some j =>
      have hj : j < prev_ids.length := lt_of_lt_of_le (matchIdx_lt_length hm) hlen
      obtain ⟨rid, hrid⟩ := getElem?_eq_some_of_lt hj
      simp only [processRules, hm, hrid]
      exact ih _ _
    | none =>
      simp only [processRules, hm]
      cases hsr : s.rules (draws acc.new_rules.length) with
      | some rr => simp [hsr]
      | none =>
        simp only [hsr, Option.isSome_none, Bool.false_eq_true, if_false]
        cases hinc : s.incidents a.incident_id with
        | some incident =>
          cases hd : incident.is_disclosed with
          | true => simp [hd]
          | false =>
            simp only [hd, Bool.false_eq_true, if_false]
            exact ih _ _
        | none => exact ih _ _

theorem processRules_lrtdi_sound (s : CanisterState) (nv : Version) (full : List InputRule)
    (prev_ids : List RuleId) (draws : Nat → RuleId) :
    ∀ (sub : List InputRule) (idx : Nat) (acc : DiffAcc) (n : Nat) (iid : IncidentId),
      processRules s nv full prev_ids draws sub idx acc =
        some (.error (.LinkingRuleToDisclosedIncident n iid)) →
      ∃ i r, sub[i]? = some r ∧ offendsPolicy s full r = true ∧ n = idx + i ∧
        iid = r.incident_id := by
  intro sub
  induction sub with
  | nil => intro idx acc n iid h; simp [processRules] at h
  | cons a rest ih =>
    intro idx acc n iid h
    cases hm : matchIdx full a with
    | some j =>
      simp only [processRules, hm] at h
      cases hj : prev_ids[j]? with
      | none => simp [hj] at h
      | some rid =>
        simp only [hj] at h
        obtain ⟨i, r', h1, h2, h3, h4⟩ := ih _ _ _ _ h
        exact ⟨i + 1, r', by simpa using h1, h2, by omega, h4⟩
    | none =>
      simp only [processRules, hm] at h
      cases hsr : s.rules (draws acc.new_rules.length) with
      | some rr => simp [hsr] at h
      | none =>
        simp only [hsr, Option.isSome_none, Bool.false_eq_true, if_false] at h
        cases hinc : s.incidents a.incident_id with
        | some incident =>
          simp only [hinc] at h
          cases hd : incident.is_disclosed with
          | true =>
            simp only [hd, if_true] at h
            have h2 : idx = n ∧ a.incident_id = iid := by
              simpa using h
            refine ⟨0, a, by simp, ?_, by omega, h2.2.symm⟩
            simp [offendsPolicy, hm, hinc, hd]
          | false =>
            simp only [hd, Bool.false_eq_true, if_false] at h
            obtain ⟨i, r', h1, h2, h3, h4⟩ := ih _ _ _ _ h
            exact ⟨i + 1, r', by simpa using h1, h2, by omega, h4⟩
        | none =>
          simp only [hinc] at h
          obtain ⟨i, r', h1, h2, h3, h4⟩ := ih _ _ _ _ h
          exact ⟨i + 1, r', by simpa using h1, h2, by omega, h4⟩

theorem processRules_lrtdi_complete (s : CanisterState) (nv : Version)
    (full : List InputRule) (prev_ids : List RuleId) (draws : Nat → RuleId)
    (hfresh : ∀ k, s.rules (draws k) = none)
    (hlen : full.length ≤ prev_ids.length) :
    ∀ (sub : List InputRule) (idx : Nat) (acc : DiffAcc) (i : Nat) (r : InputRule),
      positionFrom (offendsPolicy s full) sub = some i → sub[i]? = some r →
      processRules s nv full prev_ids draws sub idx acc =
        some (.error (.LinkingRuleToDisclosedIncident (idx + i) r.incident_id)) := by
  intro sub
  induction sub with
  | nil => intro idx acc i r hpos _; simp [positionFrom] at hpos
  | cons a rest ih =>
    intro idx acc i r hpos hr
    by_cases hpa : offendsPolicy s full a = true
    · rw [positionFrom, if_pos hpa] at hpos
      have hi0 : i = 0 := by simpa using hpos.symm
      subst hi0
      have hra : a = r := by simpa using hr
      subst hra
      have hm : matchIdx full a = none := by
        simp only [offendsPolicy, Bool.and_eq_true, Option.isNone_iff_eq_none] at hpa
        exact hpa.1
      simp only [offendsPolicy, Bool.and_eq_true] at hpa
      cases hinc : s.incidents a.incident_id with
      | none => rw [hinc] at hpa; simp at hpa
      | some incident =>
        rw [hinc] at hpa
        have hd : incident.is_disclosed = true := hpa.2
        simp [processRules, hm, hfresh acc.new_rules.length, hinc, hd]
    · rw [positionFrom, if_neg hpa] at hpos
      have hstep : ∃ k, positionFrom (offendsPolicy s full) rest = some k ∧ i = k + 1 := by
        cases hp2 : positionFrom (offendsPolicy s full) rest with
        | none => rw [hp2] at hpos; simp at hpos
        | some k =>
          rw [hp2] at hpos
          simp at hpos
          exact ⟨k, rfl, hpos.symm⟩
      obtain ⟨k, hk, rfl⟩ := hstep
      have hr2 : rest[k]? = some r := by simpa using hr
      have harith : idx + (k + 1) = (idx + 1) + k := by omega
      cases hm : matchIdx full a with
      | some j =>
        have hj : j < prev_ids.length := lt_of_lt_of_le (matchIdx_lt_length hm) hlen
        obtain ⟨rid, hrid⟩ := getElem?_eq_some_of_lt hj
        simp only [processRules, hm, hrid]
        rw [harith]
        exact ih (idx + 1) _ k r hk hr2
      | none =>
        simp only [processRules, hm, hfresh acc.new_rules.length, Option.isSome_none,
          Bool.false_eq_true, if_false]
        cases hinc : s.incidents a.incident_id with
        | some incident =>
          have hd : incident.is_disclosed = false := by
            by_cases hdd : incident.is_disclosed = true
            · exact absurd (by simp [offendsPolicy, hm, hinc, hdd]) hpa
            · simpa using hdd
          simp only [hinc, hd, Bool.false_eq_true, if_false]
          rw [harith]
          exact ih (idx + 1) _ k r hk hr2
        | none =>
          simp only [hinc]
          rw [harith]
          exact ih (idx + 1) _ k r hk hr2

theorem add_config_invalid_input {s : CanisterState} {input : ApiInputConfig}
    {time : Timestamp} {draws : Nat → RuleId} {e : InputConfigError}
    (h : inputConfigTryFrom input = .error e) :
    add_config s input time draws = .failure (.InvalidInputConfig e) s := by
  simp only [add_config, h]

theorem add_config_no_version {s : CanisterState} {input : ApiInputConfig}
    {time : Timestamp} {draws : Nat → RuleId} {nc : InputConfig}
    (h : inputConfigTryFrom input = .ok nc) (hv : s.version = none) :
    add_config s input time draws =
      .failure (.Internal "No existing config version found") s := by
  simp only [add_config, h, get_version, hv]

theorem add_config_no_config {s : CanisterState} {input : ApiInputConfig}
    {time : Timestamp} {draws : Nat → RuleId} {nc : InputConfig} {v : Version}
    (h : inputConfigTryFrom input = .ok nc) (hv : s.version = some v)
    (hc : s.configs v = none) :
    add_config s input time draws =
      .failure (.Internal "No config for version found") s := by
  simp only [add_config, h, get_version, hv, get_config, hc]

theorem add_config_overflow {s : CanisterState} {input : ApiInputConfig}
    {time : Timestamp} {draws : Nat → RuleId} {nc : InputConfig} {cfg : StorableConfig}
    (h : inputConfigTryFrom input = .ok nc) (hv : s.version = some U64MAX)
    (hc : s.configs U64MAX = some cfg) :
    add_config s input time draws =
      .failure (.Internal "Overflow occurred while incrementing the current version") s := by
  have hov : checkedAddOne U64MAX = none := by
    unfold checkedAddOne
    rw [if_neg (Nat.not_succ_le_self U64MAX)]
  simp only [add_config, h, get_version, hv, get_config, hc, get_full_config_eq hc, hov]

theorem parseInputRules_error_uuid :
    ∀ (rs : List ApiInputRule) (b i : Nat) (r : ApiInputRule),
      rs[i]? = some r → parseIncidentText r.incident_id = none →
      (∀ (i' : Nat) (r' : ApiInputRule), i' < i → rs[i']? = some r' →
        parseIncidentText r'.incident_id ≠ none ∧ parseRuleRaw r'.rule_raw ≠ none) →
      parseInputRules rs b = .error (.InvalidIncidentUuidFormat (b + i)) := by
  intro rs
  induction rs with
  | nil => intro b i r hr _ _; simp at hr
  | cons a rest ih =>
    intro b i r hr hbad hmin
    cases i with
    | zero =>
      have ha : a = r := by simpa using hr
      subst ha
      simp [parseInputRules, hbad]
    | succ i' =>
      obtain ⟨hg1, hg2⟩ := hmin 0 a (by omega) (by simp)
      cases hp1 : parseIncidentText a.incident_id with
      | none => exact absurd hp1 hg1
      | some iid =>
        cases hp2 : parseRuleRaw a.rule_raw with
        | none => exact absurd hp2 hg2
        | some jv =>
          have hrec := ih (b + 1) i' r (by simpa using hr) hbad
            (fun i'' r'' hlt hr'' => hmin (i'' + 1) r'' (by omega) (by simpa using hr''))
          have harith : b + (i' + 1) = (b + 1) + i' := by omega
          rw [harith]
          simp only [parseInputRules, hp1, hp2, hrec]

theorem parseInputRules_error_json :
    ∀ (rs : List ApiInputRule) (b i : Nat) (r : ApiInputRule),
      rs[i]? = some r → parseIncidentText r.incident_id ≠ none →
      parseRuleRaw r.rule_raw = none →
      (∀ (i' : Nat) (r' : ApiInputRule), i' < i → rs[i']? = some r' →
        parseIncidentText r'.incident_id ≠ none ∧ parseRuleRaw r'.rule_raw ≠ none) →
      parseInputRules rs b = .error (.InvalidRuleJsonEncoding (b + i)) := by
  intro rs
  induction rs with
  | nil => intro b i r hr _ _ _; simp at hr
  | cons a rest ih =>
    intro b i r hr huuid hbad hmin
    cases i with
    | zero =>
      have ha : a = r := by simpa using hr
      subst ha
      cases hp1 : parseIncidentText a.incident_id with
      | none => exact absurd hp1 huuid
      | some iid => simp [parseInputRules, hp1, hbad]
    | succ i' =>
      obtain ⟨hg1, hg2⟩ := hmin 0 a (by omega) (by simp)
      cases hp1 : parseIncidentText a.incident_id with
      | none => exact absurd hp1 hg1
      | some iid =>
        cases hp2 : parseRuleRaw a.rule_raw with
        | none => exact absurd hp2 hg2
        | some jv =>
          have hrec := ih (b + 1) i' r (by simpa using hr) huuid hbad
            (fun i'' r'' hlt hr'' => hmin (i'' + 1) r'' (by omega) (by simpa using hr''))
          have harith : b + (i' + 1) = (b + 1) + i' := by omega
          rw [harith]
          simp only [parseInputRules, hp1, hp2, hrec]

theorem findDuplicateRules_sound :
    ∀ (rules : List InputRule) (i j : Nat),
      findDuplicateRules rules = some (i, j) → contentDupAt rules i j := by
  intro rules
  induction rules with
  | nil => intro i j h; simp [findDuplicateRules] at h
  | cons r rest ih =>
    intro i j h
    cases hp : positionFrom (fun x => ruleContentEq r x) rest with
    | some k =>
      simp only [findDuplicateRules, hp] at h
      have h2 : 0 = i ∧ k + 1 = j := by simpa using h
      obtain ⟨h2a, h2b⟩ := h2
      subst h2a
      subst h2b
      obtain ⟨x, hx, hpx⟩ := positionFrom_sound hp
      exact ⟨by omega, r, x, by simp, by simpa using hx, hpx⟩
    | none =>
      simp only [findDuplicateRules, hp] at h
      cases hf : findDuplicateRules rest with
      | none => rw [hf] at h; simp at h
      | some p =>
        rw [hf] at h
        obtain ⟨i0, j0⟩ := p
        have h2 : i0 + 1 = i ∧ j0 + 1 = j := by simpa using h
        obtain ⟨h2a, h2b⟩ := h2
        subst h2a
        subst h2b
        obtain ⟨hlt, ri, rj, hri, hrj, heq⟩ := ih i0 j0 hf
        exact ⟨by omega, ri, rj, by simpa using hri, by simpa using hrj, heq⟩

theorem findDuplicateRules_minimal :
    ∀ (rules : List InputRule) (i j : Nat), findDuplicateRules rules = some (i, j) →
      ∀ i' j', contentDupAt rules i' j' → i < i' ∨ (i = i' ∧ j ≤ j') := by
  intro rules
  induction rules with
  | nil => intro i j h; simp [findDuplicateRules] at h
  | cons r rest ih =>
    intro i j h i' j' hdup
    obtain ⟨hlt, ri, rj, hri, hrj, heq⟩ := hdup
    cases hp : positionFrom (fun x => ruleContentEq r x) rest with
    | some k =>
      simp only [findDuplicateRules, hp] at h
      have h2 : 0 = i ∧ k + 1 = j := by simpa using h
      obtain ⟨h2a, h2b⟩ := h2
      subst h2a
      subst h2b
      cases hi' : i' with
      | zero =>
        subst hi'
        have hrir : r = ri := by simpa using hri
        subst hrir
        cases hj' : j' with
        | zero => omega
        | succ j'' =>
          subst hj'
          have hrj2 : rest[j'']? = some rj := by simpa using hrj
          right
          refine ⟨rfl, ?_⟩
          by_contra hcon
          push_neg at hcon
          have hlt2 : j'' < k := by omega
          have := positionFrom_min hp j'' rj hlt2 hrj2
          rw [heq] at this
          cases this
      | succ i'' => left; omega
    | none =>
      simp only [findDuplicateRules, hp] at h
      cases hf : findDuplicateRules rest with
      | none => rw [hf] at h; simp at h
      | some p =>
        rw [hf] at h
        obtain ⟨i0, j0⟩ := p
        have h2 : i0 + 1 = i ∧ j0 + 1 = j := by simpa using h
        obtain ⟨h2a, h2b⟩ := h2
        subst h2a
        subst h2b
        cases hi' : i' with
        | zero =>
          subst hi'
          have hrir : r = ri := by simpa using hri
          subst hrir
          cases hj' : j' with
          | zero => omega
          | succ j'' =>
            subst hj'
            have hrj2 : rest[j'']? = some rj := by simpa using hrj
            have := positionFrom_none hp j'' rj hrj2
            rw [heq] at this
            cases this
        | succ i'' =>
          subst hi'
          cases hj' : j' with
          | zero => omega
          | succ j'' =>
            subst hj'
            have hdup2 : contentDupAt rest i'' j'' :=
              ⟨by omega, ri, rj, by simpa using hri, by simpa using hrj, heq⟩
            rcases ih i0 j0 hf i'' j'' hdup2 with hc | hc
            · left; omega
            · right; omega

theorem findDuplicateRules_complete :
    ∀ (rules : List InputRule) (i j : Nat), contentDupAt rules i j →
      findDuplicateRules rules ≠ none := by
  intro rules
  induction rules with
  | nil =>
    intro i j hdup
    obtain ⟨_, ri, rj, hri, _, _⟩ := hdup
    simp at hri
  | cons r rest ih =>
    intro i j hdup h
    obtain ⟨hlt, ri, rj, hri, hrj, heq⟩ := hdup
    cases hp : positionFrom (fun x => ruleContentEq r x) rest with
    | some k => simp [findDuplicateRules, hp] at h
    | none =>
      simp only [findDuplicateRules, hp] at h
      cases i with
      | zero =>
        have hrir : r = ri := by simpa using hri
        subst hrir
        cases j with
        | zero => omega
        | succ j'' =>
          have hrj2 : rest[j'']? = some rj := by simpa using hrj
          have := positionFrom_none hp j'' rj hrj2
          rw [heq] at this
          cases this
      | succ i'' =>
        cases j with
        | zero => omega
        | succ j'' =>
          have hdup2 : contentDupAt rest i'' j'' :=
            ⟨by omega, ri, rj, by simpa using hri, by simpa using hrj, heq⟩
          have := ih i'' j'' hdup2
          cases hf : findDuplicateRules rest with
          | none => exact this hf
          | some p => rw [hf] at h; simp at h

theorem tryFrom_error_of_parse {input : ApiInputConfig} {e : InputConfigError}
    (h : parseInputRules input.rules 0 = .error e) :
    inputConfigTryFrom input = .error e := by
  simp [inputConfigTryFrom, h]

theorem tryFrom_error_of_dup {input : ApiInputConfig} {rules : List InputRule} {i j : Nat}
    (h : parseInputRules input.rules 0 = .ok rules)
    (hd : findDuplicateRules rules = some (i, j)) :
    inputConfigTryFrom input = .error (.DuplicateRules i j) := by
  simp [inputConfigTryFrom, h, hd]

theorem tryFrom_ok_inv {input : ApiInputConfig} {nc : InputConfig}
    (h : inputConfigTryFrom input = .ok nc) :
    parseInputRules input.rules 0 = .ok nc.rules ∧
      findDuplicateRules nc.rules = none ∧ nc.schema_version = input.schema_version := by
  unfold inputConfigTryFrom at h
  split at h
  · cases h
  next rules h1 =>
    split at h
    · cases h
    next h2 =>
      have h3 : ({ schema_version := input.schema_version, rules := rules } : InputConfig) =
          nc := by
        injection h
      subst h3
      exact ⟨h1, h2, rfl⟩

theorem isSuccess_iff {res : AddResult} : isSuccess res = true ↔ ∃ s, res = .success s := by
  cases res <;> simp [isSuccess]

theorem checkedAddOne_some {v : Version} (h : v + 1 ≤ U64MAX) :
    checkedAddOne v = some (v + 1) := by
  unfold checkedAddOne
  rw [if_pos h]

theorem mem_removedRuleIds {prev next : List RuleId} {rid : RuleId} :
    rid ∈ removedRuleIds prev next ↔ rid ∈ prev ∧ rid ∉ next := by
  simp [removedRuleIds]

theorem processRules_all_matched_ok (s : CanisterState) (nv : Version)
    (full : List InputRule) (prev_ids : List RuleId) (draws : Nat → RuleId)
    (hlen : full.length ≤ prev_ids.length) :
    ∀ (sub : List InputRule) (idx : Nat) (acc : DiffAcc),
      (∀ (i : Nat) (r : InputRule), sub[i]? = some r → (matchIdx full r).isSome = true) →
      ∃ acc', processRules s nv full prev_ids draws sub idx acc = some (.ok acc') := by
  intro sub
  induction sub with
  | nil => intro idx acc _; exact ⟨acc, by simp [processRules]⟩
  | cons a rest ih =>
    intro idx acc hall
    have hm0 := hall 0 a (by simp)
    cases hm : matchIdx full a with
    | none => rw [hm] at hm0; simp at hm0
    | some j =>
      have hj : j < prev_ids.length := lt_of_lt_of_le (matchIdx_lt_length hm) hlen
      obtain ⟨rid, hrid⟩ := getElem?_eq_some_of_lt hj
      obtain ⟨acc', hacc⟩ := ih (idx + 1) _ (fun i r hr => hall (i + 1) r (by simpa using hr))
      exact ⟨acc', by simp only [processRules, hm, hrid]; exact hacc⟩

theorem specNewRules_eq_nil (full : List InputRule) (nv : Version) (draws : Nat → RuleId) :
    ∀ (sub : List InputRule) (c : Nat),
      (∀ (i : Nat) (r : InputRule), sub[i]? = some r → (matchIdx full r).isSome = true) →
      specNewRules full nv draws sub c = [] := by
  intro sub
  induction sub with
  | nil => intro c _; simp [specNewRules]
  | cons a rest ih =>
    intro c hall
    have hm0 := hall 0 a (by simp)
    cases hm : matchIdx full a with
    | none => rw [hm] at hm0; simp at hm0
    | some j =>
      simp only [specNewRules, hm]
      exact ih c (fun i r hr => hall (i + 1) r (by simpa using hr))

theorem mem_zip_getElem? {α β : Type} :
    ∀ (xs : List α) (ys : List β) (p : α × β), p ∈ xs.zip ys →
      ∃ i : Nat, xs[i]? = some p.1 ∧ ys[i]? = some p.2 := by
  intro xs
  induction xs with
  | nil => intro ys p hp; simp at hp
  | cons a t ih =>
    intro ys p hp
    cases ys with
    | nil => simp at hp
    | cons b t₂ =>
      simp only [List.zip_cons_cons, List.mem_cons] at hp
      rcases hp with hp | hp
      · exact ⟨0, by simp [hp]⟩
      · obtain ⟨i, h1, h2⟩ := ih t₂ p hp
        exact ⟨i + 1, by simpa using h1, by simpa using h2⟩

theorem specPairs_map_fst (full : List InputRule) (prev_ids : List RuleId)
    (draws : Nat → RuleId) (sub : List InputRule) (c : Nat) :
    (specPairs full prev_ids draws sub c).map Prod.fst = sub.map InputRule.incident_id := by
  unfold specPairs
  rw [List.map_fst_zip]
  simp [specIds_length]

theorem processRules_ok_spec0 {s : CanisterState} {nv : Version} {full : List InputRule}
    {prev_ids : List RuleId} {draws : Nat → RuleId} {sub : List InputRule} {acc : DiffAcc}
    (h : processRules s nv full prev_ids draws sub 0 ⟨[], [], []⟩ = some (.ok acc)) :
    acc.rule_ids = specIds full prev_ids draws sub 0 ∧
    acc.new_rules = specNewRules full nv draws sub 0 ∧
    acc.incidents_map = foldPairs [] (specPairs full prev_ids draws sub 0) ∧
    ∀ p ∈ specNewRules full nv draws sub 0, s.rules p.1 = none := by
  have h2 := processRules_ok_spec s nv full prev_ids draws sub 0 ⟨[], [], []⟩ acc h
  simpa using h2

theorem add_config_success_inv_anchored {s : CanisterState} {input : ApiInputConfig}
    {time : Timestamp} {draws : Nat → RuleId} {post : CanisterState}
    {nc : InputConfig} {v : Version} {cfg : StorableConfig} {fc : InputConfig}
    (hok : add_config s input time draws = .success post)
    (hnc : inputConfigTryFrom input = .ok nc)
    (hv : s.version = some v) (hcfg : s.configs v = some cfg)
    (hfc : get_full_config s v = some fc) :
    ∃ acc,
      processRules s (v + 1) fc.rules cfg.rule_ids draws nc.rules 0 ⟨[], [], []⟩ =
        some (.ok acc) ∧
      v + 1 ≤ U64MAX ∧
      commit_changes s (v + 1) ⟨nc.schema_version, time, acc.rule_ids⟩
        (removedRuleIds cfg.rule_ids acc.rule_ids) acc.new_rules acc.incidents_map =
        some post := by
  obtain ⟨nc', v', cfg', fc', acc, h1, h2, h3, h4, h5, h6, h7⟩ := add_config_success_inv hok
  rw [hnc] at h1
  injection h1 with h1e
  subst h1e
  rw [hv] at h2
  injection h2 with h2e
  subst h2e
  rw [hcfg] at h3
  injection h3 with h3e
  subst h3e
  rw [hfc] at h4
  injection h4 with h4e
  subst h4e
  exact ⟨acc, h6, h5, h7⟩

/-- Claim C5: on success exactly one new config record is appended, keyed by the
previous version plus one; a store with no current version (or no config stored
for it) yields an `Internal` error with no commit; a current version at the
maximum representable value is detected as overflow and yields an `Internal`
error with no mutation. -/
theorem c5_versioning_and_internal_errors (s : CanisterState) (input : ApiInputConfig)
    (time : Timestamp) (draws : Nat → RuleId) (nc : InputConfig)
    (hnc : inputConfigTryFrom input = .ok nc) :
    (s.version = none →
      add_config s input time draws =
        .failure (.Internal "No existing config version found") s) ∧
    (∀ v : Version, s.version = some v → s.configs v = none →
      add_config s input time draws =
        .failure (.Internal "No config for version found") s) ∧
    (∀ cfg : StorableConfig, s.version = some U64MAX → s.configs U64MAX = some cfg →
      add_config s input time draws =
        .failure (.Internal "Overflow occurred while incrementing the current version") s) ∧
    (∀ post : CanisterState, add_config s input time draws = .success post →
      ∃ (v : Version) (newCfg : StorableConfig),
        s.version = some v ∧
        post.configs (v + 1) = some newCfg ∧
        post.version = some (v + 1) ∧
        ∀ w : Version, w ≠ v + 1 → post.configs w = s.configs w) := by
  refine ⟨fun hv => add_config_no_version hnc hv,
          fun v hv hc => add_config_no_config hnc hv hc,
          fun cfg hv hc => add_config_overflow hnc hv hc, ?_⟩
  intro post hok
  obtain ⟨nc', v, cfg, fc, acc, h1, h2, h3, h4, h5, h6, h7⟩ := add_config_success_inv hok
  obtain ⟨hconf, hver, _, _, _⟩ := commit_post_state h7
  refine ⟨v, ⟨nc'.schema_version, time, acc.rule_ids⟩, h2, ?_, hver, ?_⟩
  · rw [hconf (v + 1)]
    simp
  · intro w hw
    rw [hconf w, if_neg hw]

/-- Witness for C5: on an uninitialized store the call fails with the
`Internal` "no version" error and leaves the store unchanged. -/
theorem c5_witness :
    add_config exEmptyState exInputEmpty 10 exDraws =
      .failure (.Internal "No existing config version found") exEmptyState :=
  (c5_versioning_and_internal_errors exEmptyState exInputEmpty 10 exDraws ⟨1, []⟩
    rfl).1 rfl

/-- Claim C1: a submitted rule whose content matches the rule at position `j` of
the previous active version's full rule list is assigned the `RuleId` stored at
that same position `j` of the previous version's id list; identifiers are
therefore preserved under reordering, only the stored order changes. -/
theorem c1_content_match_reuses_id (s : CanisterState) (input : ApiInputConfig)
    (time : Timestamp) (draws : Nat → RuleId) (post : CanisterState)
    (nc : InputConfig) (v : Version) (cfg : StorableConfig) (fc : InputConfig)
    (hok : add_config s input time draws = .success post)
    (hnc : inputConfigTryFrom input = .ok nc)
    (hv : s.version = some v) (hcfg : s.configs v = some cfg)
    (hfc : get_full_config s v = some fc)
    (hdist : ∀ (a b : Nat) (x y : InputRule), a < b → fc.rules[a]? = some x →
      fc.rules[b]? = some y → ruleContentEq x y = false)
    (i j : Nat) (r f : InputRule) (rid : RuleId)
    (hr : nc.rules[i]? = some r)
    (hf : fc.rules[j]? = some f) (hmatch : ruleContentEq f r = true)
    (hrid : cfg.rule_ids[j]? = some rid) :
    ∃ newCfg : StorableConfig,
      post.configs (v + 1) = some newCfg ∧ newCfg.rule_ids[i]? = some rid := by
  obtain ⟨acc, hproc, hle, hcommit⟩ := add_config_success_inv_anchored hok hnc hv hcfg hfc
  have hmi : matchIdx fc.rules r = some j := by
    apply positionFrom_of hf hmatch
    intro m y hm hy
    cases hb : ruleContentEq y r with
    | false => rfl
    | true =>
      have hyf : ruleContentEq y f = true :=
        ruleContentEq_trans hb (ruleContentEq_symm hmatch)
      have := hdist m j y f hm hy hf
      rw [hyf] at this
      cases this
  obtain ⟨hids, hnew, hincm, hfresh⟩ := processRules_ok_spec0 hproc
  obtain ⟨hconf, hver, _, _, _⟩ := commit_post_state hcommit
  refine ⟨⟨nc.schema_version, time, acc.rule_ids⟩, by rw [hconf]; simp, ?_⟩
  rw [hids]
  rw [specIds_getElem?]
  simp [specAssignedId, hr, hmi, hrid]

/-- Witness for C1: resubmitting the stored rule in a different byte encoding
reuses the stored id 7 at position 0. -/
theorem c1_witness :
    ∃ (post : CanisterState) (newCfg : StorableConfig),
      add_config exStateOne exInputA2 20 exDraws = .success post ∧
      post.configs 2 = some newCfg ∧ newCfg.rule_ids[0]? = some ⟨7⟩ := by
  have hs : isSuccess (add_config exStateOne exInputA2 20 exDraws) = true := by decide
  obtain ⟨post, hok⟩ := isSuccess_iff.mp hs
  obtain ⟨newCfg, h1, h2⟩ :=
    c1_content_match_reuses_id exStateOne exInputA2 20 exDraws post ⟨2, [exRuleA2]⟩ 1
      ⟨1, 10, [⟨7⟩]⟩ ⟨1, [exRuleA]⟩ hok rfl rfl rfl rfl
      (by
        intro a b x y hab ha hb
        cases b with
        | zero => omega
        | succ n => simp at hb)
      0 0 exRuleA2 exRuleA ⟨7⟩ rfl rfl (by decide) rfl
  exact ⟨post, newCfg, hok, h1, h2⟩

/-- Claim C7: the persisted config record keyed by the next version holds the
submitted `schema_version`, `active_since` equal to the caller-supplied
timestamp, and one rule id per submitted rule in exactly the submitted order
(the `i`-th stored id is the id assigned to the `i`-th submitted rule). -/
theorem c7_persisted_config_fields_and_order (s : CanisterState) (input : ApiInputConfig)
    (time : Timestamp) (draws : Nat → RuleId) (post : CanisterState)
    (nc : InputConfig) (v : Version) (cfg : StorableConfig) (fc : InputConfig)
    (hok : add_config s input time draws = .success post)
    (hnc : inputConfigTryFrom input = .ok nc)
    (hv : s.version = some v) (hcfg : s.configs v = some cfg)
    (hfc : get_full_config s v = some fc) :
    ∃ newCfg : StorableConfig,
      post.configs (v + 1) = some newCfg ∧
      newCfg.schema_version = nc.schema_version ∧
      newCfg.active_since = time ∧
      newCfg.rule_ids.length = nc.rules.length ∧
      ∀ i : Nat, newCfg.rule_ids[i]? =
        specAssignedId fc.rules cfg.rule_ids draws nc.rules 0 i := by
  obtain ⟨acc, hproc, hle, hcommit⟩ := add_config_success_inv_anchored hok hnc hv hcfg hfc
  obtain ⟨hids, _, _, _⟩ := processRules_ok_spec0 hproc
  obtain ⟨hconf, _, _, _, _⟩ := commit_post_state hcommit
  refine ⟨⟨nc.schema_version, time, acc.rule_ids⟩, by rw [hconf]; simp, rfl, rfl, ?_, ?_⟩
  · show acc.rule_ids.length = nc.rules.length
    rw [hids]
    exact specIds_length fc.rules cfg.rule_ids draws nc.rules 0
  · intro i
    show acc.rule_ids[i]? = specAssignedId fc.rules cfg.rule_ids draws nc.rules 0 i
    rw [hids, specIds_getElem?]

/-- Witness for C7: resubmitting the one stored rule under schema version 2 at
time 20 stores exactly those fields at version 2. -/
theorem c7_witness :
    ∃ (post : CanisterState) (newCfg : StorableConfig),
      add_config exStateOne exInputA2 20 exDraws = .success post ∧
      post.configs 2 = some newCfg ∧
      newCfg.schema_version = 2 ∧ newCfg.active_since = 20 ∧
      newCfg.rule_ids.length = 1 ∧
      ∀ i : Nat, newCfg.rule_ids[i]? =
        specAssignedId [exRuleA] [⟨7⟩] exDraws [exRuleA2] 0 i := by
  have hs : isSuccess (add_config exStateOne exInputA2 20 exDraws) = true := by decide
  obtain ⟨post, hok⟩ := isSuccess_iff.mp hs
  obtain ⟨newCfg, h1, h2, h3, h4, h5⟩ :=
    c7_persisted_config_fields_and_order exStateOne exInputA2 20 exDraws post
      ⟨2, [exRuleA2]⟩ 1 ⟨1, 10, [⟨7⟩]⟩ ⟨1, [exRuleA]⟩ hok rfl rfl rfl rfl
  exact ⟨post, newCfg, hok, h1, h2, h3, h4, h5⟩

/-- Claim C2: a submitted rule with no content match among the previous
version's active rules receives the next fresh random id, which is distinct
from every stored `RuleId` (in particular from the id of any previously removed
rule), and on success is persisted with `added_in_version = next_version`,
`removed_in_version = None` and `disclosed_at = None`.  The random draws of one
call are assumed pairwise distinct (the canister draws 128-bit UUIDs). -/
theorem c2_new_rule_fresh_id_and_persisted (s : CanisterState) (input : ApiInputConfig)
    (time : Timestamp) (draws : Nat → RuleId) (post : CanisterState)
    (nc : InputConfig) (v : Version) (cfg : StorableConfig) (fc : InputConfig)
    (hok : add_config s input time draws = .success post)
    (hnc : inputConfigTryFrom input = .ok nc)
    (hv : s.version = some v) (hcfg : s.configs v = some cfg)
    (hfc : get_full_config s v = some fc)
    (hinj : Function.Injective draws)
    (i : Nat) (r : InputRule)
    (hr : nc.rules[i]? = some r)
    (hmiss : matchIdx fc.rules r = none) :
    ∃ (rid : RuleId) (newCfg : StorableConfig),
      post.configs (v + 1) = some newCfg ∧
      newCfg.rule_ids[i]? = some rid ∧
      rid = draws (newRuleCountBefore fc.rules nc.rules i) ∧
      s.rules rid = none ∧
      post.rules rid = some
        { incident_id := r.incident_id
          rule_raw := r.rule_raw
          description := r.description
          disclosed_at := none
          added_in_version := v + 1
          removed_in_version := none } := by
  obtain ⟨acc, hproc, hle, hcommit⟩ := add_config_success_inv_anchored hok hnc hv hcfg hfc
  obtain ⟨hids, hnew, hincm, hfresh⟩ := processRules_ok_spec0 hproc
  obtain ⟨hconf, hver, hold, hnewr, hincs⟩ := commit_post_state hcommit
  have hmem : (draws (0 + newRuleCountBefore fc.rules nc.rules i),
      mkNewStorableRule (v + 1) r) ∈ specNewRules fc.rules (v + 1) draws nc.rules 0 :=
    specNewRules_mem_of fc.rules (v + 1) draws nc.rules 0 i r hr hmiss
  rw [Nat.zero_add] at hmem
  have hnd : (acc.new_rules.map Prod.fst).Nodup := by
    rw [hnew]
    exact specNewRules_keys_nodup fc.rules (v + 1) draws hinj nc.rules 0
  have hmem2 : (draws (newRuleCountBefore fc.rules nc.rules i),
      mkNewStorableRule (v + 1) r) ∈ acc.new_rules := by
    rw [hnew]
    exact hmem
  have hfre : s.rules (draws (newRuleCountBefore fc.rules nc.rules i)) = none :=
    hfresh _ hmem
  refine ⟨draws (newRuleCountBefore fc.rules nc.rules i),
    ⟨nc.schema_version, time, acc.rule_ids⟩, by rw [hconf]; simp, ?_, rfl, hfre, ?_⟩
  · show acc.rule_ids[i]? = _
    rw [hids, specIds_getElem?]
    simp [specAssignedId, hr, hmiss]
  · exact hnewr hnd _ _ hmem2

/-- Witness for C2: a brand-new rule under incident B gets the first draw
(id 100), absent from the store, and is persisted with version-2 metadata. -/
theorem c2_witness :
    ∃ (rid : RuleId) (post : CanisterState) (newCfg : StorableConfig),
      add_config exStateOne exInputB 20 exDraws = .success post ∧
      post.configs 2 = some newCfg ∧
      newCfg.rule_ids[0]? = some rid ∧
      rid = ⟨100⟩ ∧
      exStateOne.rules rid = none ∧
      post.rules rid = some
        { incident_id := exIncidentB
          rule_raw := .wellFormed exJson2 0
          description := "rule b"
          disclosed_at := none
          added_in_version := 2
          removed_in_version := none } := by
  have hs : isSuccess (add_config exStateOne exInputB 20 exDraws) = true := by decide
  obtain ⟨post, hok⟩ := isSuccess_iff.mp hs
  obtain ⟨rid, newCfg, h1, h2, h3, h4, h5⟩ :=
    c2_new_rule_fresh_id_and_persisted exStateOne exInputB 20 exDraws post
      ⟨1, [exRuleB]⟩ 1 ⟨1, 10, [⟨7⟩]⟩ ⟨1, [exRuleA]⟩ hok rfl rfl rfl rfl
      (by
        intro a b hab
        have h2 := congrArg RuleId.uuid hab
        simp [exDraws] at h2
        omega)
      0 exRuleB rfl (by decide)
  exact ⟨rid, post, newCfg, hok, h1, h2, h3, h4, h5⟩

/-- Claim C3: the rules whose `removed_in_version` is set by a successful call
are exactly those in the previous version's id list and not in the next
version's id list; each gets `removed_in_version = next_version` with every
other stored field unchanged and remains retrievable, and every other stored
rule is untouched. -/
theorem c3_removed_set_and_frame (s : CanisterState) (input : ApiInputConfig)
    (time : Timestamp) (draws : Nat → RuleId) (post : CanisterState)
    (nc : InputConfig) (v : Version) (cfg : StorableConfig) (fc : InputConfig)
    (hok : add_config s input time draws = .success post)
    (hnc : inputConfigTryFrom input = .ok nc)
    (hv : s.version = some v) (hcfg : s.configs v = some cfg)
    (hfc : get_full_config s v = some fc) :
    ∃ newCfg : StorableConfig,
      post.configs (v + 1) = some newCfg ∧
      ∀ (rid : RuleId) (rule : StorableRule), s.rules rid = some rule →
        post.rules rid = some
          (if rid ∈ cfg.rule_ids ∧ rid ∉ newCfg.rule_ids then
            { rule with removed_in_version := some (v + 1) }
           else rule) := by
  obtain ⟨acc, hproc, hle, hcommit⟩ := add_config_success_inv_anchored hok hnc hv hcfg hfc
  obtain ⟨hids, hnew, hincm, hfresh⟩ := processRules_ok_spec0 hproc
  obtain ⟨hconf, hver, hold, hnewr, hincs⟩ := commit_post_state hcommit
  refine ⟨⟨nc.schema_version, time, acc.rule_ids⟩, by rw [hconf]; simp, ?_⟩
  intro rid rule hs
  have hnotmem : rid ∉ acc.new_rules.map Prod.fst := by
    intro hmem
    obtain ⟨p, hp, hpe⟩ := List.mem_map.mp hmem
    rw [hnew] at hp
    have hf := hfresh p hp
    rw [hpe] at hf
    rw [hf] at hs
    cases hs
  have h3 := hold rid hnotmem
  rw [hs] at h3
  show post.rules rid = some (if rid ∈ cfg.rule_ids ∧ rid ∉ acc.rule_ids then
    { rule with removed_in_version := some (v + 1) } else rule)
  by_cases hcond : rid ∈ cfg.rule_ids ∧ rid ∉ acc.rule_ids
  · rw [if_pos hcond]
    rw [if_pos (mem_removedRuleIds.mpr hcond)] at h3
    simpa using h3
  · rw [if_neg hcond]
    rw [if_neg (fun hm => hcond (mem_removedRuleIds.mp hm))] at h3
    exact h3

/-- Witness for C3: submitting an empty config drops stored rule 7, which stays
retrievable with `removed_in_version = 2` and all other fields unchanged. -/
theorem c3_witness :
    ∃ (post : CanisterState) (newCfg : StorableConfig),
      add_config exStateOne exInputEmpty 20 exDraws = .success post ∧
      post.configs 2 = some newCfg ∧
      post.rules ⟨7⟩ = some
        (if (⟨7⟩ : RuleId) ∈ [(⟨7⟩ : RuleId)] ∧ (⟨7⟩ : RuleId) ∉ newCfg.rule_ids then
          { exStoredRuleA with removed_in_version := some 2 }
         else exStoredRuleA) := by
  have hs : isSuccess (add_config exStateOne exInputEmpty 20 exDraws) = true := by decide
  obtain ⟨post, hok⟩ := isSuccess_iff.mp hs
  obtain ⟨newCfg, h1, h2⟩ :=
    c3_removed_set_and_frame exStateOne exInputEmpty 20 exDraws post
      ⟨1, []⟩ 1 ⟨1, 10, [⟨7⟩]⟩ ⟨1, [exRuleA]⟩ hok rfl rfl rfl rfl
  exact ⟨post, newCfg, hok, h1, h2 ⟨7⟩ exStoredRuleA rfl⟩

/-- Claim C4: the call fails with `LinkingRuleToDisclosedIncident` exactly when
some submitted rule with no content match among the previous version's active
rules targets a stored incident with `is_disclosed = true`; the failure carries
the offending index and incident and performs no storage mutation; reused
(content-matched) rules are never checked against the policy. -/
theorem c4_disclosed_incident_policy (s : CanisterState) (input : ApiInputConfig)
    (time : Timestamp) (draws : Nat → RuleId)
    (nc : InputConfig) (v : Version) (cfg : StorableConfig) (fc : InputConfig)
    (hnc : inputConfigTryFrom input = .ok nc)
    (hv : s.version = some v) (hcfg : s.configs v = some cfg)
    (hfc : get_full_config s v = some fc)
    (hov : v + 1 ≤ U64MAX)
    (hfresh : ∀ k : Nat, s.rules (draws k) = none) :
    ((∃ (n : Nat) (iid : IncidentId),
        add_config s input time draws =
          .failure (.LinkingRuleToDisclosedIncident n iid) s) ↔
      ∃ (i : Nat) (r : InputRule), nc.rules[i]? = some r ∧
        offendsPolicy s fc.rules r = true) ∧
    (∀ (n : Nat) (iid : IncidentId),
        add_config s input time draws =
          .failure (.LinkingRuleToDisclosedIncident n iid) s →
      ∃ r : InputRule, nc.rules[n]? = some r ∧ iid = r.incident_id ∧
        offendsPolicy s fc.rules r = true) := by
  have hca : checkedAddOne v = some (v + 1) := checkedAddOne_some hov
  have hlen : fc.rules.length ≤ cfg.rule_ids.length := get_full_config_rules_length hcfg hfc
  have hfwd : ∀ (n : Nat) (iid : IncidentId),
      add_config s input time draws = .failure (.LinkingRuleToDisclosedIncident n iid) s →
      processRules s (v + 1) fc.rules cfg.rule_ids draws nc.rules 0 ⟨[], [], []⟩ =
        some (.error (.LinkingRuleToDisclosedIncident n iid)) := by
    intro n iid h
    simp only [add_config, hnc, get_version, hv, get_config, hcfg, hfc, hca] at h
    split at h
    · cases h
    next e h6 =>
      have he : e = .LinkingRuleToDisclosedIncident n iid := by
        injection h with h1 h2
      rw [he] at h6
      exact h6
    next acc h6 =>
      split at h
      · cases h
      · cases h
  constructor
  · constructor
    · rintro ⟨n, iid, h⟩
      obtain ⟨i, r, h1, h2, h3, h4⟩ :=
        processRules_lrtdi_sound s (v + 1) fc.rules cfg.rule_ids draws nc.rules 0 _ n iid
          (hfwd n iid h)
      exact ⟨i, r, h1, h2⟩
    · rintro ⟨i, r, h1, h2⟩
      obtain ⟨n0, hpos⟩ := positionFrom_isSome_of h1 h2
      obtain ⟨r0, hr0, _⟩ := positionFrom_sound hpos
      have hproc := processRules_lrtdi_complete s (v + 1) fc.rules cfg.rule_ids draws
        hfresh hlen nc.rules 0 ⟨[], [], []⟩ n0 r0 hpos hr0
      refine ⟨0 + n0, r0.incident_id, ?_⟩
      simp only [add_config, hnc, get_version, hv, get_config, hcfg, hfc, hca, hproc]
  · intro n iid h
    obtain ⟨i, r, h1, h2, h3, h4⟩ :=
      processRules_lrtdi_sound s (v + 1) fc.rules cfg.rule_ids draws nc.rules 0 _ n iid
        (hfwd n iid h)
    refine ⟨r, ?_, h4, h2⟩
    rw [h3]
    simpa using h1

/-- Witness for C4: a brand-new rule targeting the disclosed incident B makes
the call fail with the policy error, leaving the store untouched. -/
theorem c4_witness :
    ∃ (n : Nat) (iid : IncidentId),
      add_config exStateDisclosed exInputB 20 exDraws =
        .failure (.LinkingRuleToDisclosedIncident n iid) exStateDisclosed :=
  (c4_disclosed_incident_policy exStateDisclosed exInputB 20 exDraws
    ⟨1, [exRuleB]⟩ 1 ⟨1, 10, []⟩ ⟨1, []⟩ rfl rfl rfl rfl (by decide)
    (fun _ => rfl)).1.mpr ⟨0, exRuleB, rfl, by decide⟩

/-- Claim C6: a submission with a malformed incident UUID, malformed rule JSON,
or two content-equal entries fails with the corresponding typed validation
error (`DuplicateRules` reporting the lexicographically lowest colliding pair)
and performs zero storage mutation — the submission is rejected atomically. -/
theorem c6_validation_rejects_atomically (s : CanisterState) (input : ApiInputConfig)
    (time : Timestamp) (draws : Nat → RuleId) :
    (∀ e : InputConfigError, inputConfigTryFrom input = .error e →
        add_config s input time draws = .failure (.InvalidInputConfig e) s) ∧
    (∀ (i : Nat) (r : ApiInputRule), input.rules[i]? = some r →
        parseIncidentText r.incident_id = none →
        (∀ (i' : Nat) (r' : ApiInputRule), i' < i → input.rules[i']? = some r' →
          parseIncidentText r'.incident_id ≠ none ∧ parseRuleRaw r'.rule_raw ≠ none) →
        add_config s input time draws =
          .failure (.InvalidInputConfig (.InvalidIncidentUuidFormat i)) s) ∧
    (∀ (i : Nat) (r : ApiInputRule), input.rules[i]? = some r →
        parseIncidentText r.incident_id ≠ none → parseRuleRaw r.rule_raw = none →
        (∀ (i' : Nat) (r' : ApiInputRule), i' < i → input.rules[i']? = some r' →
          parseIncidentText r'.incident_id ≠ none ∧ parseRuleRaw r'.rule_raw ≠ none) →
        add_config s input time draws =
          .failure (.InvalidInputConfig (.InvalidRuleJsonEncoding i)) s) ∧
    (∀ (rules : List InputRule) (i j : Nat),
        parseInputRules input.rules 0 = .ok rules → contentDupAt rules i j →
        (∀ i' j' : Nat, contentDupAt rules i' j' → i < i' ∨ (i = i' ∧ j ≤ j')) →
        add_config s input time draws =
          .failure (.InvalidInputConfig (.DuplicateRules i j)) s) := by
  refine ⟨fun e he => add_config_invalid_input he, ?_, ?_, ?_⟩
  · intro i r hr hbad hmin
    have hp := parseInputRules_error_uuid input.rules 0 i r hr hbad hmin
    rw [Nat.zero_add] at hp
    exact add_config_invalid_input (tryFrom_error_of_parse hp)
  · intro i r hr huuid hbad hmin
    have hp := parseInputRules_error_json input.rules 0 i r hr huuid hbad hmin
    rw [Nat.zero_add] at hp
    exact add_config_invalid_input (tryFrom_error_of_parse hp)
  · intro rules i j hok hdup hmin
    have hne := findDuplicateRules_complete rules i j hdup
    cases hf : findDuplicateRules rules with
    | none => exact absurd hf hne
    | some p =>
      obtain ⟨i0, j0⟩ := p
      have hd0 := findDuplicateRules_sound rules i0 j0 hf
      have hm1 := findDuplicateRules_minimal rules i0 j0 hf i j hdup
      have hm2 := hmin i0 j0 hd0
      have hij : i0 = i ∧ j0 = j := by
        rcases hm1 with h | h <;> rcases hm2 with h2 | h2 <;> omega
      rw [hij.1, hij.2] at hf
      exact add_config_invalid_input (tryFrom_error_of_dup hok hf)

/-- Witness for C6: a submission whose only entry has a malformed incident UUID
fails with `InvalidIncidentUuidFormat 0` and no mutation. -/
theorem c6_witness :
    add_config exEmptyState exInputBadUuid 10 exDraws =
      .failure (.InvalidInputConfig (.InvalidIncidentUuidFormat 0)) exEmptyState :=
  (c6_validation_rejects_atomically exEmptyState exInputBadUuid 10 exDraws).2.1 0
    exApiRuleBadUuid rfl rfl (fun i' r' h _ => absurd h (by omega))

/-- Claim C10: the reuse lookup indexes the previous version's id list with the
position found by searching the full rule-body list, with no bounds check; the
loop cannot panic when the full rule list is no longer than the id list
(index-aligned storage), and a state whose full rule list is longer than the id
list makes it panic (modelled as `none`). -/
theorem c10_reuse_indexing_bounds :
    (∀ (s : CanisterState) (nv : Version) (full : List InputRule)
       (prev_ids : List RuleId) (draws : Nat → RuleId) (sub : List InputRule)
       (idx : Nat) (acc : DiffAcc),
        full.length ≤ prev_ids.length →
        processRules s nv full prev_ids draws sub idx acc ≠ none) ∧
    (∃ (s : CanisterState) (nv : Version) (full : List InputRule)
       (prev_ids : List RuleId) (draws : Nat → RuleId) (sub : List InputRule),
        prev_ids.length < full.length ∧
        processRules s nv full prev_ids draws sub 0 ⟨[], [], []⟩ = none) := by
  constructor
  · intro s nv full prev_ids draws sub idx acc hlen
    exact processRules_no_panic s nv full prev_ids draws hlen sub idx acc
  · exact ⟨exEmptyState, 2, [exRuleA], [], exDraws, [exRuleA], by simp, rfl⟩

/-- Witness for C10: under the alignment precondition the loop returns a value
(no panic) on a concrete input. -/
theorem c10_witness :
    processRules exStateOne 2 [exRuleA] [⟨7⟩] exDraws [exRuleA2] 0 ⟨[], [], []⟩ ≠ none :=
  c10_reuse_indexing_bounds.1 exStateOne 2 [exRuleA] [⟨7⟩] exDraws [exRuleA2] 0
    ⟨[], [], []⟩ (by simp)

theorem mem_of_getElem?_eq {α : Type} :
    ∀ (l : List α) (n : Nat) (a : α), l[n]? = some a → a ∈ l := by
  intro l
  induction l with
  | nil => intro n a h; simp at h
  | cons x t ih =>
    intro n a h
    cases n with
    | zero =>
      simp at h
      simp [h]
    | succ m =>
      simp at h
      exact List.mem_cons_of_mem _ (ih m a h)

theorem zip_getElem?_of {α β : Type} :
    ∀ (xs : List α) (ys : List β) (n : Nat) (u : α) (w : β),
      xs[n]? = some u → ys[n]? = some w → (xs.zip ys)[n]? = some (u, w) := by
  intro xs
  induction xs with
  | nil => intro ys n u w h _; simp at h
  | cons x t ih =>
    intro ys n u w h1 h2
    cases ys with
    | nil => simp at h2
    | cons y t₂ =>
      cases n with
      | zero =>
        simp at h1 h2
        simp [h1, h2]
      | succ m =>
        simp at h1 h2 ⊢
        exact ih t₂ m u w h1 h2

/-- Claim C9: incident membership grows monotonically — after a successful call
every touched incident stores the union of its prior membership with the rule
ids the submission linked to it; an incident created by the call starts with
`is_disclosed = false`; untouched incidents are unchanged. -/
theorem c9_incident_membership_monotone (s : CanisterState) (input : ApiInputConfig)
    (time : Timestamp) (draws : Nat → RuleId) (post : CanisterState)
    (nc : InputConfig) (v : Version) (cfg : StorableConfig) (fc : InputConfig)
    (hok : add_config s input time draws = .success post)
    (hnc : inputConfigTryFrom input = .ok nc)
    (hv : s.version = some v) (hcfg : s.configs v = some cfg)
    (hfc : get_full_config s v = some fc) :
    ∀ iid : IncidentId,
      incidentMembers (s.incidents iid) ⊆ incidentMembers (post.incidents iid) ∧
      post.incidents iid =
        (if specLinkedIds fc.rules cfg.rule_ids draws nc.rules iid = ∅ then s.incidents iid
         else some (applyIncident (s.incidents iid)
                (specLinkedIds fc.rules cfg.rule_ids draws nc.rules iid))) ∧
      (specLinkedIds fc.rules cfg.rule_ids draws nc.rules iid = ∅ ↔
        ∀ (i : Nat) (r : InputRule), nc.rules[i]? = some r → r.incident_id ≠ iid) := by
  intro iid
  obtain ⟨acc, hproc, hle, hcommit⟩ := add_config_success_inv_anchored hok hnc hv hcfg hfc
  obtain ⟨hids, hnew, hincm, hfresh⟩ := processRules_ok_spec0 hproc
  obtain ⟨hconf, hver, hold, hnewr, hincs⟩ := commit_post_state hcommit
  have hiff0 : ((specPairs fc.rules cfg.rule_ids draws nc.rules 0).filter
      (fun p => decide (p.1 = iid))) = [] ↔
      ∀ (i : Nat) (r : InputRule), nc.rules[i]? = some r → r.incident_id ≠ iid := by
    rw [List.filter_eq_nil_iff]
    constructor
    · intro hnone i r hr hiid
      have hy : ∃ y, (specIds fc.rules cfg.rule_ids draws nc.rules 0)[i]? = some y := by
        rw [specIds_getElem?]
        cases hmx : matchIdx fc.rules r with
        | some j =>
          exact ⟨cfg.rule_ids.getD j default, by simp [specAssignedId, hr, hmx]⟩
        | none =>
          exact ⟨draws (newRuleCountBefore fc.rules nc.rules i),
            by simp [specAssignedId, hr, hmx]⟩
      obtain ⟨y, hy⟩ := hy
      have hfst : (nc.rules.map InputRule.incident_id)[i]? = some r.incident_id := by
        simp [hr]
      have hzip : (specPairs fc.rules cfg.rule_ids draws nc.rules 0)[i]? =
          some (r.incident_id, y) := zip_getElem?_of _ _ i _ _ hfst hy
      have hmem := mem_of_getElem?_eq _ i _ hzip
      have := hnone _ hmem
      simp [hiid] at this
    · intro hall p hp hdec
      have h1 : p.1 = iid := by simpa using hdec
      have hmem : p.1 ∈ (specPairs fc.rules cfg.rule_ids draws nc.rules 0).map Prod.fst :=
        List.mem_map_of_mem _ hp
      rw [specPairs_map_fst] at hmem
      obtain ⟨r, hrm, hre⟩ := List.mem_map.mp hmem
      obtain ⟨i, hri⟩ := List.mem_iff_getElem?.mp hrm
      exact hall i r hri (by rw [hre, h1])
  have hiff : specLinkedIds fc.rules cfg.rule_ids draws nc.rules iid = ∅ ↔
      ∀ (i : Nat) (r : InputRule), nc.rules[i]? = some r → r.incident_id ≠ iid := by
    unfold specLinkedIds
    rw [List.toFinset_eq_empty_iff, List.map_eq_nil_iff]
    exact hiff0
  have hnd : (mapKeys acc.incidents_map).Nodup := by
    rw [hincm]
    exact nodup_mapKeys_foldPairs _ [] (by simp [mapKeys])
  have hpost := hincs hnd iid
  rw [hincm, mapLookup_foldPairs] at hpost
  by_cases hE : ((specPairs fc.rules cfg.rule_ids draws nc.rules 0).filter
      (fun p => decide (p.1 = iid))).map Prod.snd = []
  · rw [if_pos hE] at hpost
    simp only [mapLookup] at hpost
    have hempty : specLinkedIds fc.rules cfg.rule_ids draws nc.rules iid = ∅ := by
      unfold specLinkedIds
      rw [hE]
      simp
    refine ⟨?_, ?_, hiff⟩
    · rw [hpost]
    · rw [if_pos hempty]
      exact hpost
  · rw [if_neg hE] at hpost
    simp only [mapLookup, Option.getD_none, Finset.empty_union] at hpost
    have hne : specLinkedIds fc.rules cfg.rule_ids draws nc.rules iid ≠ ∅ := by
      unfold specLinkedIds
      intro hcon
      rw [List.toFinset_eq_empty_iff] at hcon
      exact hE hcon
    refine ⟨?_, ?_, hiff⟩
    · rw [hpost]
      cases hsi : s.incidents iid with
      | none => simp [incidentMembers]
      | some inc =>
        simp only [incidentMembers, applyIncident]
        exact Finset.subset_union_left
    · rw [if_neg hne]
      exact hpost

/-- Witness for C9: incident B, previously unseen, is created by the call with
`is_disclosed = false` and exactly the newly linked id; monotonicity holds. -/
theorem c9_witness :
    ∃ post : CanisterState,
      add_config exStateOne exInputB 20 exDraws = .success post ∧
      (incidentMembers (exStateOne.incidents exIncidentB) ⊆
        incidentMembers (post.incidents exIncidentB)) ∧
      post.incidents exIncidentB =
        (if specLinkedIds [exRuleA] [⟨7⟩] exDraws [exRuleB] exIncidentB = ∅ then
          exStateOne.incidents exIncidentB
         else some (applyIncident (exStateOne.incidents exIncidentB)
                (specLinkedIds [exRuleA] [⟨7⟩] exDraws [exRuleB] exIncidentB))) := by
  have hs : isSuccess (add_config exStateOne exInputB 20 exDraws) = true := by decide
  obtain ⟨post, hok⟩ := isSuccess_iff.mp hs
  obtain ⟨h1, h2, h3⟩ :=
    c9_incident_membership_monotone exStateOne exInputB 20 exDraws post
      ⟨1, [exRuleB]⟩ 1 ⟨1, 10, [⟨7⟩]⟩ ⟨1, [exRuleA]⟩ hok rfl rfl rfl rfl exIncidentB
  exact ⟨post, hok, h1, h2⟩

/-- Claim C8: resubmitting, in identical order, rules content-identical to the
current active config (regardless of byte encoding) succeeds and changes the
store only by the one appended config record; every rule record and every
incident record is unchanged.  The pre-state is assumed consistent: every
stored id of the current config resolves to an active rule, the active rules
are pairwise content-distinct, and each is a member of its (existing) incident
record. -/
theorem c8_identical_resubmission_frame (s : CanisterState) (input : ApiInputConfig)
    (time : Timestamp) (draws : Nat → RuleId)
    (nc : InputConfig) (v : Version) (cfg : StorableConfig) (fc : InputConfig)
    (hnc : inputConfigTryFrom input = .ok nc)
    (hv : s.version = some v) (hcfg : s.configs v = some cfg)
    (hfc : get_full_config s v = some fc)
    (hov : v + 1 ≤ U64MAX)
    (hreslen : fc.rules.length = cfg.rule_ids.length)
    (hdist : ∀ (a b : Nat) (x y : InputRule), a < b → fc.rules[a]? = some x →
      fc.rules[b]? = some y → ruleContentEq x y = false)
    (hlen : nc.rules.length = fc.rules.length)
    (hpt : ∀ (i : Nat) (f r : InputRule), fc.rules[i]? = some f →
      nc.rules[i]? = some r → ruleContentEq f r = true)
    (hincon : ∀ (i : Nat) (rid : RuleId) (f : InputRule), cfg.rule_ids[i]? = some rid →
      fc.rules[i]? = some f →
      ∃ inc, s.incidents f.incident_id = some inc ∧ rid ∈ inc.rule_ids) :
    ∃ post : CanisterState,
      add_config s input time draws = .success post ∧
      (∀ rid : RuleId, post.rules rid = s.rules rid) ∧
      (∀ iid : IncidentId, post.incidents iid = s.incidents iid) ∧
      post.configs (v + 1) = some ⟨nc.schema_version, time, cfg.rule_ids⟩ ∧
      (∀ w : Version, w ≠ v + 1 → post.configs w = s.configs w) := by
  have hmatch_at : ∀ (i : Nat) (r : InputRule), nc.rules[i]? = some r →
      matchIdx fc.rules r = some i := by
    intro i r hr
    have hilt : i < nc.rules.length := lt_length_of_getElem? hr
    have hif : i < fc.rules.length := by omega
    obtain ⟨f, hf⟩ := getElem?_eq_some_of_lt hif
    have heq : ruleContentEq f r = true := hpt i f r hf hr
    apply positionFrom_of hf heq
    intro m y hm hy
    cases hb : ruleContentEq y r with
    | false => rfl
    | true =>
      have hyf : ruleContentEq y f = true := ruleContentEq_trans hb (ruleContentEq_symm heq)
      have hc := hdist m i y f hm hy hf
      rw [hyf] at hc
      cases hc
  have hlen2 : fc.rules.length ≤ cfg.rule_ids.length := le_of_eq hreslen
  have hall : ∀ (i : Nat) (r : InputRule), nc.rules[i]? = some r →
      (matchIdx fc.rules r).isSome = true := by
    intro i r hr
    rw [hmatch_at i r hr]
    rfl
  obtain ⟨acc, hproc⟩ := processRules_all_matched_ok s (v + 1) fc.rules cfg.rule_ids draws
    hlen2 nc.rules 0 ⟨[], [], []⟩ hall
  obtain ⟨hids, hnew, hincm, hfresh⟩ := processRules_ok_spec0 hproc
  have hids_eq : acc.rule_ids = cfg.rule_ids := by
    rw [hids]
    apply List.ext_getElem?
    intro i
    rw [specIds_getElem?]
    by_cases hi : i < nc.rules.length
    · obtain ⟨r, hr⟩ := getElem?_eq_some_of_lt hi
      have hm := hmatch_at i r hr
      have hic : i < cfg.rule_ids.length := by omega
      obtain ⟨rid, hrid⟩ := getElem?_eq_some_of_lt hic
      rw [hrid]
      simp [specAssignedId, hr, hm, hrid]
    · have h1 : nc.rules[i]? = none := List.getElem?_eq_none (by omega)
      have h2 : cfg.rule_ids[i]? = none := List.getElem?_eq_none (by omega)
      rw [h2]
      simp [specAssignedId, h1]
  have hnew_nil : acc.new_rules = [] := by
    rw [hnew]
    exact specNewRules_eq_nil fc.rules (v + 1) draws nc.rules 0 hall
  have hrem_nil : removedRuleIds cfg.rule_ids acc.rule_ids = [] := by
    rw [hids_eq, removedRuleIds, List.filter_eq_nil_iff]
    intro a ha
    simp [ha]
  have hcommit : commit_changes s (v + 1) ⟨nc.schema_version, time, acc.rule_ids⟩
      (removedRuleIds cfg.rule_ids acc.rule_ids) acc.new_rules acc.incidents_map =
      some (storage_add_config (commitIncidents (commitNew s acc.new_rules)
        acc.incidents_map) (v + 1) ⟨nc.schema_version, time, acc.rule_ids⟩) := by
    rw [hrem_nil]
    unfold commit_changes
    simp [commitRemoved]
  have hca : checkedAddOne v = some (v + 1) := checkedAddOne_some hov
  have hadd : add_config s input time draws = .success
      (storage_add_config (commitIncidents (commitNew s acc.new_rules) acc.incidents_map)
        (v + 1) ⟨nc.schema_version, time, acc.rule_ids⟩) := by
    simp only [add_config, hnc, get_version, hv, get_config, hcfg, hfc, hca, hproc, hcommit]
  obtain ⟨hconf, hver, hold, hnewr, hincs⟩ := commit_post_state hcommit
  have hnd : (mapKeys acc.incidents_map).Nodup := by
    rw [hincm]
    exact nodup_mapKeys_foldPairs _ [] (by simp [mapKeys])
  have hspec_eq : specIds fc.rules cfg.rule_ids draws nc.rules 0 = cfg.rule_ids := by
    rw [← hids]
    exact hids_eq
  have hkey : ∀ p : IncidentId × RuleId,
      p ∈ specPairs fc.rules cfg.rule_ids draws nc.rules 0 →
      ∃ inc, s.incidents p.1 = some inc ∧ p.2 ∈ inc.rule_ids := by
    intro p hp
    have hp2 : p ∈ (nc.rules.map InputRule.incident_id).zip
        (specIds fc.rules cfg.rule_ids draws nc.rules 0) := hp
    obtain ⟨i, hf1, hf2⟩ := mem_zip_getElem? _ _ p hp2
    rw [hspec_eq] at hf2
    rw [List.getElem?_map] at hf1
    cases hr : nc.rules[i]? with
    | none => rw [hr] at hf1; cases hf1
    | some r =>
      rw [hr] at hf1
      have hre : r.incident_id = p.1 := by simpa using hf1
      have hif : i < fc.rules.length := by
        have := lt_length_of_getElem? hr
        omega
      obtain ⟨f, hf⟩ := getElem?_eq_some_of_lt hif
      have heq := hpt i f r hf hr
      have hfi : f.incident_id = r.incident_id := (ruleContentEq_iff.mp heq).1
      obtain ⟨inc, hinc, hmem⟩ := hincon i p.2 f hf2 hf
      rw [hfi, hre] at hinc
      exact ⟨inc, hinc, hmem⟩
  refine ⟨_, hadd, ?_, ?_, ?_, ?_⟩
  · intro rid
    have h3 := hold rid (by rw [hnew_nil]; simp)
    rw [hrem_nil] at h3
    simpa using h3
  · intro iid
    have h4 := hincs hnd iid
    have hLk : mapLookup acc.incidents_map iid =
        (if ((specPairs fc.rules cfg.rule_ids draws nc.rules 0).filter
              (fun p => decide (p.1 = iid))).map Prod.snd = [] then mapLookup [] iid
         else some (((mapLookup [] iid).getD ∅) ∪
           (((specPairs fc.rules cfg.rule_ids draws nc.rules 0).filter
              (fun p => decide (p.1 = iid))).map Prod.snd).toFinset)) := by
      rw [hincm]
      exact mapLookup_foldPairs _ [] iid
    rw [hLk] at h4
    by_cases hEE : ((specPairs fc.rules cfg.rule_ids draws nc.rules 0).filter
        (fun p => decide (p.1 = iid))).map Prod.snd = []
    · rw [if_pos hEE] at h4
      simp only [mapLookup] at h4
      exact h4
    · rw [if_neg hEE] at h4
      simp only [mapLookup, Option.getD_none, Finset.empty_union] at h4
      have hfilne : (specPairs fc.rules cfg.rule_ids draws nc.rules 0).filter
          (fun p => decide (p.1 = iid)) ≠ [] := by
        intro hnil
        exact hEE (by rw [hnil]; rfl)
      obtain ⟨p0, hp0f⟩ := List.exists_mem_of_ne_nil _ hfilne
      obtain ⟨hp0, hp0e⟩ := List.mem_filter.mp hp0f
      have hp0iid : p0.1 = iid := by simpa using hp0e
      obtain ⟨inc, hincf, _⟩ := hkey p0 hp0
      rw [hp0iid] at hincf
      have hsub : (((specPairs fc.rules cfg.rule_ids draws nc.rules 0).filter
          (fun p => decide (p.1 = iid))).map Prod.snd).toFinset ⊆ inc.rule_ids := by
        intro x hx
        rw [List.mem_toFinset] at hx
        obtain ⟨q, hq, hqx⟩ := List.mem_map.mp hx
        obtain ⟨hq1, hq2⟩ := List.mem_filter.mp hq
        have hq3 : q.1 = iid := by simpa using hq2
        obtain ⟨inc2, hinc2, hmem2⟩ := hkey q hq1
        rw [hq3, hincf] at hinc2
        injection hinc2 with hinc2e
        rw [← hqx, hinc2e]
        exact hmem2
      rw [h4, hincf]
      simp [applyIncident, Finset.union_eq_left.mpr hsub]
  · rw [hconf (v + 1), if_pos rfl, hids_eq]
  · intro w hw
    rw [hconf w, if_neg hw]

/-- Witness for C8: resubmitting the stored rule re-encoded leaves the rule and
incident stores untouched and appends config 2. -/
theorem c8_witness :
    ∃ post : CanisterState,
      add_config exStateOne exInputA2 20 exDraws = .success post ∧
      (∀ rid : RuleId, post.rules rid = exStateOne.rules rid) ∧
      (∀ iid : IncidentId, post.incidents iid = exStateOne.incidents iid) ∧
      post.configs 2 = some ⟨2, 20, [⟨7⟩]⟩ ∧
      (∀ w : Version, w ≠ 2 → post.configs w = exStateOne.configs w) := by
  have h := c8_identical_resubmission_frame exStateOne exInputA2 20 exDraws
    ⟨2, [exRuleA2]⟩ 1 ⟨1, 10, [⟨7⟩]⟩ ⟨1, [exRuleA]⟩ rfl rfl rfl rfl (by decide) rfl
    (by
      intro a b x y hab ha hb
      cases b with
      | zero => omega
      | succ n => simp at hb)
    rfl
    (by
      intro i f r hf hr
      cases i with
      | zero =>
        have hf2 : some exRuleA = some f := hf
        have hr2 : some exRuleA2 = some r := hr
        injection hf2 with hf3
        injection hr2 with hr3
        subst hf3
        subst hr3
        decide
      | succ n => simp at hf)
    (by
      intro i rid f hrid hf
      cases i with
      | zero =>
        have hrid2 : some (⟨7⟩ : RuleId) = some rid := hrid
        have hf2 : some exRuleA = some f := hf
        injection hrid2 with hrid3
        injection hf2 with hf3
        subst hrid3
        subst hf3
        exact ⟨⟨false, {(⟨7⟩ : RuleId)}⟩, rfl, by decide⟩
      | succ n => simp at hf)
  exact h

end RateLimits
